import Mathlib

/-!
Verification development for the MultiversX governance statistics dashboard.

The source program is JavaScript/TypeScript (two closely related variants of
the same dashboard component, called V1 and V2 below, plus a small caching
proxy).  This file gives a shallow embedding of its computational core:

* hex decoding utilities (`hexBytes`, `hexToAscii`, `hexToBigInt`),
* the minimal bech32 encoder (`bech32Polymod`, `bech32HrpExpand`,
  `bech32CreateChecksum`, `bech32Encode`, `convertBits`, `hexToBech32Erd`),
* the vote option decoder (`decodeOption`),
* the aggregation fold over raw events (`stepV1`/`statsV1`, `stepV2`/`statsV2`),
* the leaderboard extraction (`topPerCategoryV1`, `topPerCategoryV2`).

Modelling conventions)
* JavaScript `BigInt` vote powers and stakes are modelled as `Nat` (all the
  values produced by `hexToBigInt` are non-negative and arithmetic on them
  never overflows).
* JavaScript `number` values flowing through `parseInt` are modelled as
  `Option Int`, with `none` standing for `NaN` (a chunk with no parsable hex
  digit).  Where the code consumes such a value bitwise (`convertBits`), `NaN`
  behaves exactly like `0`: `NaN < 0` is false, `NaN >> 8` is `0` and
  `x | NaN` is `x | 0`; the embedding maps `none` to `0` at that point, with a
  comment at the use site.
* JavaScript `Map` objects are modelled as association lists with the exact
  `Map.get`/`Map.set` semantics (`jsGet`, `jsSet`): `set` overwrites the first
  matching key in place and otherwise appends, so insertion order is kept.
* `Array.prototype.sort` (a stable sort under a consistent comparator) is
  modelled by `List.mergeSort` with the total preorder induced by the
  comparator.
* The 32 bit truncation JavaScript applies inside `convertBits` and
  `bech32Polymod` is immaterial for every reachable value (accumulators stay
  below `2 ^ 30`, reads touch only the low `from + to - 1` bits), so those
  accumulators are modelled as unbounded `Nat`; see the comments at the
  definitions.
-/

namespace GovStats

/-! ## Characters and JavaScript `parseInt(s, 16)` -/

/-- White space characters skipped by JavaScript `parseInt` (the ASCII ones
plus no-break space; the exotic Unicode space classes cannot occur in the
two-character chunks fed to `parseInt` by this program). -/
def isWsChar (c : Char) : Bool :=
  c.toNat == 32 || c.toNat == 9 || c.toNat == 10 || c.toNat == 13 ||
  c.toNat == 11 || c.toNat == 12 || c.toNat == 0xA0

/-- Hexadecimal digit recognizer (both letter cases, as `parseInt(_, 16)`);
the ranges are `0`–`9`, `a`–`f`, `A`–`F` by code point. -/
def isHexDigitChar (c : Char) : Bool :=
  (48 ≤ c.toNat && c.toNat ≤ 57) || (97 ≤ c.toNat && c.toNat ≤ 102) ||
  (65 ≤ c.toNat && c.toNat ≤ 70)

/-- Value of a hexadecimal digit (by code point). -/
def hexDigitVal (c : Char) : Nat :=
  if 48 ≤ c.toNat && c.toNat ≤ 57 then c.toNat - 48
  else if 97 ≤ c.toNat && c.toNat ≤ 102 then c.toNat - 97 + 10
  else if 65 ≤ c.toNat && c.toNat ≤ 70 then c.toNat - 65 + 10
  else 0

/-- Longest-prefix base-16 accumulation: consume leading hex digits, ignore
the rest (`parseInt` ignores trailing garbage). -/
def hexRun (acc : Nat) : List Char → Nat
  | [] => acc
  | c :: r => if isHexDigitChar c then hexRun (16 * acc + hexDigitVal c) r else acc

/-- The longest leading run of hex digits as a number, or `NaN` (`none`)
when the first character is not a hex digit (or the input is empty). -/
def hexRunStart : List Char → Option Nat
  | [] => none
  | c :: r => if isHexDigitChar c then some (hexRun 0 (c :: r)) else none

/-- Magnitude part of `parseInt(s, 16)`: strip an optional `0x`/`0X` prefix,
then take the longest run of hex digits; no digit at all gives `NaN`. -/
def parseHexMag : List Char → Option Nat
  | c₀ :: c₁ :: r =>
    if c₀ = '0' ∧ (c₁ = 'x' ∨ c₁ = 'X') then hexRunStart r
    else hexRunStart (c₀ :: c₁ :: r)
  | l => hexRunStart l

/-- JavaScript `parseInt(s, 16)`: skip leading white space, optional sign,
then `parseHexMag`; `none` models `NaN`. -/
def parseIntHex16 (l : List Char) : Option Int :=
  match l.dropWhile isWsChar with
  | [] => none
  | c :: r =>
    if c = '-' then (parseHexMag r).map (fun n => -(Int.ofNat n))
    else if c = '+' then (parseHexMag r).map Int.ofNat
    else (parseHexMag (c :: r)).map Int.ofNat

/-! ## The chunking regex `.match(/.{1,2}/g)` -/

/-- JavaScript line terminators, which `.` does not match. -/
def isLineTerm (c : Char) : Bool :=
  c.toNat == 10 || c.toNat == 13 || c.toNat == 0x2028 || c.toNat == 0x2029

/-- Model of `s.match(/.{1,2}/g)`: greedy two-character chunks scanned from the left;
a line terminator is skipped (it never matches `.`), and a lone final
character forms a one-character chunk.  An empty result models the `null`
return (`?? []` in the source). -/
def chunkPairs : List Char → List (List Char)
  | [] => []
  | [c] => if isLineTerm c then [] else [[c]]
  | c :: c₂ :: rest₂ =>
    if isLineTerm c then chunkPairs (c₂ :: rest₂)
    else if isLineTerm c₂ then [c] :: chunkPairs rest₂
    else [c, c₂] :: chunkPairs rest₂

/-- The byte-decoding step shared (inline) by `hexToAscii` and
`hexToBech32Erd`: `hex.match(/.{1,2}/g)?.map((b) => parseInt(b, 16)) ?? []`.
`none` entries are `NaN` bytes. -/
def hexBytes (hex : String) : List (Option Int) :=
  (chunkPairs hex.data).map parseIntHex16

/-! ## `hexToAscii`, lower casing, `decodeOption`, `hexToBigInt` -/

/-- Model of `String.fromCharCode` on one value: `ToUint16`, with `ToUint16(NaN) = 0`.
All reachable values (0–255 from non-negative chunks, `0xFFF1`–`0xFFFF` from
sign-parsed chunks) are valid scalar values, so `Char.ofNat` is exact. -/
def u16ToChar (v : Option Int) : Char :=
  match v with
  | none => Char.ofNat 0
  | some i => Char.ofNat (Int.toNat (i.emod 65536))

/-- Model of `replace(/\u0000+$/g, '')`: strip the trailing run of NUL characters. -/
def dropTrailingNuls (l : List Char) : List Char :=
  (l.reverse.dropWhile (· == Char.ofNat 0)).reverse

/-- Function `hexToAscii` from the source (both variants are identical): falsy input
gives `""`; otherwise decode chunk bytes as character codes and strip
trailing NULs.  (`undefined` and `""` take the same guard branch, so the
`undefined` argument case is folded into `""`.) -/
def hexToAscii (hex : String) : String :=
  if hex = "" then ""
  else String.mk (dropTrailingNuls ((hexBytes hex).map u16ToChar))

/-- JavaScript `toLowerCase` restricted to the code points `hexToAscii` can
produce (0–255 and 0xFFF1–0xFFFF): ASCII `A`–`Z` and Latin-1 `À`–`Þ` (except
`×`) map down by 32; everything else reachable is fixed. -/
def jsToLower (c : Char) : Char :=
  if 'A' ≤ c && c ≤ 'Z' then Char.ofNat (c.toNat + 32)
  else if 0xC0 ≤ c.toNat && c.toNat ≤ 0xDE && c.toNat != 0xD7 then Char.ofNat (c.toNat + 32)
  else c

/-- Lower-casing (`toLowerCase`) of a whole string. -/
def strLower (s : String) : String := String.mk (s.data.map jsToLower)

/-- The five canonical vote options. -/
inductive VoteOption where
  | yes | no | abstain | veto | unknown
deriving DecidableEq

/-- Function `decodeOption` from the source: ASCII-decode, lower-case, then map the
literals; `"veto"`, `"ncv"` and `"veto_power"` are all Veto; anything else is
Unknown. -/
def decodeOption (hex : String) : VoteOption :=
  let s := strLower (hexToAscii hex)
  if s = "yes" then .yes
  else if s = "no" then .no
  else if s = "abstain" then .abstain
  else if s = "veto" ∨ s = "ncv" ∨ s = "veto_power" then .veto
  else .unknown

/-- Function `hexToBigInt` from the source: falsy input gives `0n`; otherwise pad odd
length with a leading `'0'` and parse `BigInt('0x' + h)`, catching the
exception on malformed input (modelled by the all-hex test; the `BigInt`
constructor accepts no interior garbage). -/
def hexToBigInt (hex : String) : Nat :=
  if hex = "" then 0
  else
    let h := if hex.length % 2 = 1 then "0" ++ hex else hex
    if h.data.all isHexDigitChar then hexRun 0 h.data else 0

/-! ## bech32 -/

/-- One iteration of the `bech32Polymod` loop.  JavaScript computes on 32 bit
integers; since `chk` stays below `2 ^ 30` and every `v` below `2 ^ 30`, the
unbounded `Nat` computation coincides with it. -/
def polymodStep (chk v : Nat) : Nat :=
  let b := chk >>> 25
  let c0 := ((chk &&& 0x1ffffff) <<< 5) ^^^ v
  let c1 := if (b >>> 0) &&& 1 ≠ 0 then c0 ^^^ 0x3b6a57b2 else c0
  let c2 := if (b >>> 1) &&& 1 ≠ 0 then c1 ^^^ 0x26508e6d else c1
  let c3 := if (b >>> 2) &&& 1 ≠ 0 then c2 ^^^ 0x1ea119fa else c2
  let c4 := if (b >>> 3) &&& 1 ≠ 0 then c3 ^^^ 0x3d4233dd else c3
  if (b >>> 4) &&& 1 ≠ 0 then c4 ^^^ 0x2a1462b3 else c4

/-- Function `bech32Polymod` from the source: fold the step over the values, seeded
with 1. -/
def bech32Polymod (values : List Nat) : Nat := values.foldl polymodStep 1

/-- Function `bech32HrpExpand` from the source. -/
def bech32HrpExpand (hrp : String) : List Nat :=
  hrp.data.map (fun c => c.toNat >>> 5) ++ [0] ++ hrp.data.map (fun c => c.toNat &&& 31)

/-- Function `bech32CreateChecksum` from the source: polymod over expanded prefix,
data and six zero placeholders, xor 1, split into six 5-bit symbols, most
significant first. -/
def bech32CreateChecksum (hrp : String) (data : List Nat) : List Nat :=
  let md := bech32Polymod (bech32HrpExpand hrp ++ data ++ [0, 0, 0, 0, 0, 0]) ^^^ 1
  (List.range 6).map (fun p => (md >>> (5 * (5 - p))) &&& 31)

/-- The fixed 32 character bech32 alphabet. -/
def BECH32_ALPHABET : String := "qpzry9x8gf2tvdw0s3jn54khce6mua7l"

/-- Function `bech32Encode` from the source.  JavaScript indexing out of the alphabet
would append `"undefined"`; every symbol reaching this function is below 32
(proved below), so the `'?'` placeholder of `getD` never arises. -/
def bech32Encode (hrp : String) (data : List Nat) : String :=
  hrp ++ "1" ++
    String.mk ((data ++ bech32CreateChecksum hrp data).map
      (fun d => BECH32_ALPHABET.data.getD d '?'))

/-! ## `convertBits` -/

/-- The inner `while (bits >= to)` loop of `convertBits`: after `acc` has
absorbed a value and `bits` has been raised, emit `bits / to` groups, reading
`(acc >> bits') & maxv` at each intermediate `bits'`, and keep `bits % to`
bits.  (For `to = 0` the JavaScript loop would diverge; that argument never
occurs, and this closed form emits nothing.) -/
def emitGroups (tb maxv acc bits : Nat) : List Nat × Nat :=
  ((List.range (bits / tb)).map (fun i => (acc >>> (bits - (i + 1) * tb)) &&& maxv),
   bits % tb)

/-- The `for (const value of data)` loop of `convertBits`, returning the
final accumulator, the final bit count and the emitted groups, or `none` as
soon as a value is negative or wider than `frm` bits. -/
def convBody (frm tb maxv : Nat) : List Int → Nat → Nat → Option (Nat × Nat × List Nat)
  | [], acc, bits => some (acc, bits, [])
  | v :: rest, acc, bits =>
    if v < 0 ∨ v.toNat >>> frm ≠ 0 then none
    else
      let acc' := (acc <<< frm) ||| v.toNat
      let eg := emitGroups tb maxv acc' (bits + frm)
      (convBody frm tb maxv rest acc' eg.2).map (fun r => (r.1, r.2.1, eg.1 ++ r.2.2))

/-- Function `convertBits` from the source.  (`from` and `to` are renamed `frm` and `tb`:
both are Lean keywords.) -/
def convertBits (data : List Int) (frm tb : Nat) (pad : Bool) : Option (List Nat) :=
  let maxv := (1 <<< tb) - 1
  match convBody frm tb maxv data 0 0 with
  | none => none
  | some (acc, bits, out) =>
    if pad then
      some (out ++ (if bits ≠ 0 then [(acc <<< (tb - bits)) &&& maxv] else []))
    else if frm ≤ bits ∨ ((acc <<< (tb - bits)) &&& maxv) ≠ 0 then none
    else some out

/-- Function `hexToBech32Erd` from the source: falsy input fails; chunk and parse the
hex; exactly 32 chunks required; regroup 8→5 with padding and encode with
prefix `"erd"`.  A `NaN` byte (`none`) passes the `convertBits` guard and is
absorbed as `0` (`NaN < 0` is false, `NaN >> 8` is `0`, `x | NaN` is `x`),
hence `getD 0`.  When `convertBits` returns `null`, `bech32Encode` throws on
`null.concat` and the surrounding `try` returns `undefined` (`none`). -/
def hexToBech32Erd (hex32 : String) : Option String :=
  if hex32 = "" then none
  else
    let bytes := hexBytes hex32
    if bytes.length ≠ 32 then none
    else
      match convertBits (bytes.map (fun b => b.getD 0)) 8 5 true with
      | none => none
      | some five => some (bech32Encode "erd" five)

/-! ## Reference functions used in statements -/

/-- Transparent restatement of pairing-from-the-left: two-character chunks,
with a lone final character when the length is odd. -/
def pairUp : List Char → List (List Char)
  | [] => []
  | [c] => [[c]]
  | c₁ :: c₂ :: r => [c₁, c₂] :: pairUp r

/-- Modelled from the spec: `hexToBytes(hex)` splits into byte pairs, with an
odd length handled by left-padding a zero nibble before pairing, and invalid
characters yielding an empty byte sequence.  (No such standalone function
exists in the source; the source realizes byte decoding inline as
`hexBytes`.  This definition follows the spec words and is compared against
`hexBytes` for claim C5.) -/
def specHexToBytesLP (hex : String) : List Nat :=
  let padded := if hex.data.length % 2 = 1 then '0' :: hex.data else hex.data
  if padded.all isHexDigitChar then (pairUp padded).map (hexRun 0) else []

/-- The value of the bit string obtained by concatenating the `frm`-bit
representations of the data values (used to specify `convertBits`). -/
def bigVal (frm : Nat) (data : List Int) : Nat :=
  data.foldl (fun a v => a * 2 ^ frm + v.toNat) 0

/-- Specification of `convertBits _ frm tb true` on valid data: pad the
concatenated bit string on the right with zeros up to a multiple of `tb` and
cut it into `tb`-bit symbols, most significant first. -/
def groupPad (frm tb : Nat) (data : List Int) : List Nat :=
  let n := data.length
  let bigN := (frm * n + (tb - 1)) / tb
  let pv := bigVal frm data <<< ((tb - (frm * n) % tb) % tb)
  (List.range bigN).map (fun i => (pv >>> (tb * (bigN - 1 - i))) &&& (2 ^ tb - 1))

/-- The xor of the generator constants selected by the low five bits of `b`
(the linear part of one `bech32Polymod` iteration acting on the top bits). -/
def gensMask (b : Nat) : Nat :=
  (if b.testBit 0 then 0x3b6a57b2 else 0) ^^^
  (if b.testBit 1 then 0x26508e6d else 0) ^^^
  (if b.testBit 2 then 0x1ea119fa else 0) ^^^
  (if b.testBit 3 then 0x3d4233dd else 0) ^^^
  (if b.testBit 4 then 0x2a1462b3 else 0)

/-- The GF(2)-linear map describing how a difference `d` in the checksum
accumulator propagates through one `bech32Polymod` iteration. -/
def polyL (d : Nat) : Nat := ((d &&& 0x1ffffff) <<< 5) ^^^ gensMask (d >>> 25)

/-- Reassemble a base-32 digit list into a number (used to show the six
checksum symbols determine the 30-bit checksum). -/
def checksumRecompose (l : List Nat) : Nat := l.foldl (fun a s => a * 32 + s) 0

/-! ## Raw events and the aggregation engine

Variant V1 is `src/unnamed/part_000` (per-voter tracking for both `vote` and
`delegateVote`, delegation power and count breakdowns, leaderboards ranked
by power).  Variant V2 is `src/multivers_x_governance_dashboard_react.jsx`
(per-voter tracking only for `delegateVote`, delegation power breakdown
only, leaderboards ranked by stake then power). -/

/-- A raw Elasticsearch log event (`hit._source`): the fields the
aggregation reads.  `address` is optional in the source record type. -/
structure RawEvent where
  address : Option String
  identifier : String
  topics : List String
deriving DecidableEq

/-- Topic access `t[i]` on a JavaScript array: `undefined` out of range.  The only
consumers of a possibly-`undefined` topic are `decodeOption`/`hexToBigInt`,
which treat `undefined` exactly like `""` (both are falsy), so the default
is `""` here; the `delegateVote` voter key keeps the `Option`. -/
def topic (t : List String) (i : Nat) : String := (t.get? i).getD ""

/-- Lookup `DELEGATION_LABELS[src] ?? 'others'`. -/
def delegationLabel (src : String) : String :=
  if src = "erd1qqqqqqqqqqqqqpgqxwakt2g7u9atsnr03gqcgmhcv38pt7mkd94q6shuwt" then
    "Legacy Delegation"
  else if src = "erd1qqqqqqqqqqqqqpgq6uzdzy54wnesfnlaycxwymrn9texlnmyah0ssrfvk6" then "xoxno"
  else if src = "erd1qqqqqqqqqqqqqpgq4gzfcw7kmkjy8zsf04ce6dl0auhtzjx078sslvrf4e" then "hatom"
  else "others"

/-- Model of `Map.get`: the value at the first matching key, if any. -/
def jsGet {κ α : Type} [BEq κ] (m : List (κ × α)) (k : κ) : Option α :=
  (m.find? (fun kv => kv.1 == k)).map (fun kv => kv.2)

/-- Model of `Map.set`: overwrite the first matching key in place, else append. -/
def jsSet {κ α : Type} [BEq κ] (m : List (κ × α)) (k : κ) (v : α) : List (κ × α) :=
  match m with
  | [] => [(k, v)]
  | (k₀, v₀) :: rest => if k₀ == k then (k₀, v) :: rest else (k₀, v₀) :: jsSet rest k v

/-- Category totals `byOption[o]` entries: `{ count, power }` (the `option` name field is
the key and is omitted). -/
structure OptionAgg where
  count : Nat
  power : Nat
deriving DecidableEq

/-- Per-voter accumulator value: `{ stake, power, count }`. -/
structure Acc where
  stake : Nat
  power : Nat
  count : Nat
deriving DecidableEq

/-- The zero accumulator `{ stake: 0n, power: 0n, count: 0 }`. -/
def zeroAcc : Acc := ⟨0, 0, 0⟩

/-- Accumulator update `{ stake: prev.stake + userStake, power: prev.power +
votePower, count: prev.count + 1 }`. -/
def accAdd (prev : Acc) (st p : Nat) : Acc := ⟨prev.stake + st, prev.power + p, prev.count + 1⟩

/-- Update `count += 1; power += votePower` on a category total. -/
def aggAdd (a : OptionAgg) (p : Nat) : OptionAgg := ⟨a.count + 1, a.power + p⟩

/-- A five-field record keyed by the vote options, mirroring the JavaScript
object literals `byOption` and `perCategoryAddresses`. -/
structure Per5 (α : Type) where
  yes : α
  no : α
  abstain : α
  veto : α
  unknown : α

/-- Field selection `x[o]`. -/
def Per5.get {α : Type} (x : Per5 α) : VoteOption → α
  | .yes => x.yes
  | .no => x.no
  | .abstain => x.abstain
  | .veto => x.veto
  | .unknown => x.unknown

/-- Field replacement. -/
def Per5.set {α : Type} (x : Per5 α) : VoteOption → α → Per5 α
  | .yes, v => { x with yes := v }
  | .no, v => { x with no := v }
  | .abstain, v => { x with abstain := v }
  | .veto, v => { x with veto := v }
  | .unknown, v => { x with unknown := v }

/-- Read–modify–write of one field (`x[o] = f(x[o])`). -/
def Per5.modify {α : Type} (x : Per5 α) (o : VoteOption) (f : α → α) : Per5 α :=
  x.set o (f (x.get o))

/-- Apply a function to every field. -/
def Per5.mapAll {α β : Type} (f : α → β) (x : Per5 α) : Per5 β :=
  ⟨f x.yes, f x.no, f x.abstain, f x.veto, f x.unknown⟩

/-- All five fields equal. -/
def Per5.const {α : Type} (v : α) : Per5 α := ⟨v, v, v, v, v⟩

/-- Update `prev = m.get(key) ?? zero; m.set(key, prev + (stake, power, 1))`. -/
def jsSetAddAcc (m : List (Option String × Acc)) (k : Option String) (st p : Nat) :
    List (Option String × Acc) :=
  jsSet m k (accAdd ((jsGet m k).getD zeroAcc) st p)

/-- Update `m.set(label, (m.get(label) ?? 0) + inc)` for the delegation breakdowns. -/
def bumpDeleg (m : List (String × Nat)) (lbl : String) (inc : Nat) : List (String × Nat) :=
  jsSet m lbl ((jsGet m lbl).getD 0 + inc)

/-- The mutable aggregation state of variant V1. -/
structure StateV1 where
  byOption : Per5 OptionAgg
  perCat : Per5 (List (Option String × Acc))
  totalPower : Nat
  delegPower : List (String × Nat)
  delegCount : List (String × Nat)

/-- Initial V1 state: zero totals, empty maps. -/
def initV1 : StateV1 := ⟨Per5.const ⟨0, 0⟩, Per5.const [], 0, [], []⟩

/-- The body of V1's `for (const hit of rawHits)` loop.  `vote` topics are
`[proposal, option, userStake, votePower]` with the voter taken from
`_source.address`; `delegateVote` topics are `[proposal, option, voter,
userStake, votePower]` with the voter bech32-decoded from `topics[2]`
falling back to the raw hex. -/
def stepV1 (s : StateV1) (e : RawEvent) : StateV1 :=
  let t := e.topics
  if t.length = 0 then s
  else if e.identifier = "vote" then
    let o := decodeOption (topic t 1)
    let p := hexToBigInt (topic t 3)
    { s with
      byOption := s.byOption.modify o (fun a => aggAdd a p),
      totalPower := s.totalPower + p,
      perCat := s.perCat.modify o
        (fun m => jsSetAddAcc m e.address (hexToBigInt (topic t 2)) p) }
  else if e.identifier = "delegateVote" then
    let o := decodeOption (topic t 1)
    let key := (t.get? 2).map (fun h => (hexToBech32Erd h).getD h)
    let p := hexToBigInt (topic t 4)
    let lbl := delegationLabel (e.address.getD "others")
    { s with
      byOption := s.byOption.modify o (fun a => aggAdd a p),
      totalPower := s.totalPower + p,
      perCat := s.perCat.modify o
        (fun m => jsSetAddAcc m key (hexToBigInt (topic t 3)) p),
      delegPower := bumpDeleg s.delegPower lbl p,
      delegCount := bumpDeleg s.delegCount lbl 1 }
  else s

/-- V1 `stats`: fold the whole batch from the initial state. -/
def statsV1 (events : List RawEvent) : StateV1 := events.foldl stepV1 initV1

/-- The mutable aggregation state of variant V2 (no count breakdown for
delegation sources). -/
structure StateV2 where
  byOption : Per5 OptionAgg
  perCat : Per5 (List (Option String × Acc))
  totalPower : Nat
  delegPower : List (String × Nat)

/-- Initial V2 state. -/
def initV2 : StateV2 := ⟨Per5.const ⟨0, 0⟩, Per5.const [], 0, []⟩

/-- The body of V2's loop: `vote` events update only the category totals
(no per-address granularity); `delegateVote` is as in V1. -/
def stepV2 (s : StateV2) (e : RawEvent) : StateV2 :=
  let t := e.topics
  if t.length = 0 then s
  else if e.identifier = "vote" then
    let o := decodeOption (topic t 1)
    let p := hexToBigInt (topic t 3)
    { s with
      byOption := s.byOption.modify o (fun a => aggAdd a p),
      totalPower := s.totalPower + p }
  else if e.identifier = "delegateVote" then
    let o := decodeOption (topic t 1)
    let key := (t.get? 2).map (fun h => (hexToBech32Erd h).getD h)
    let p := hexToBigInt (topic t 4)
    let lbl := delegationLabel (e.address.getD "others")
    { s with
      byOption := s.byOption.modify o (fun a => aggAdd a p),
      totalPower := s.totalPower + p,
      perCat := s.perCat.modify o
        (fun m => jsSetAddAcc m key (hexToBigInt (topic t 3)) p),
      delegPower := bumpDeleg s.delegPower lbl p }
  else s

/-- V2 `stats`. -/
def statsV2 (events : List RawEvent) : StateV2 := events.foldl stepV2 initV2

/-! ## Leaderboards (`topPerCategory`) -/

/-- One leaderboard row `{ address, stake, power, count }`. -/
structure VoterRow where
  address : Option String
  stake : Nat
  power : Nat
  count : Nat
deriving DecidableEq

/-- Rows `Array.from(m.entries()).map(([addr, v]) => ...)`. -/
def rowsOf (m : List (Option String × Acc)) : List VoterRow :=
  m.map (fun kv => ⟨kv.1, kv.2.stake, kv.2.power, kv.2.count⟩)

/-- V1 comparator `(a, b) => Number(b.power - a.power)` as the total
preorder "a may come before b". -/
def leByPower (a b : VoterRow) : Bool := decide (b.power ≤ a.power)

/-- V2 comparator
`(a, b) => (a.stake === b.stake ? Number(b.power - a.power) : Number(b.stake - a.stake))`. -/
def leByStakePower (a b : VoterRow) : Bool :=
  if a.stake = b.stake then decide (b.power ≤ a.power) else decide (b.stake ≤ a.stake)

/-- V1 `topPerCategory`: rows, sorted descending by power, first 50.
(`Array.prototype.sort` is a stable sort under a consistent comparator;
`mergeSort` with the induced total preorder computes the same result.) -/
def topPerCategoryV1 (m : List (Option String × Acc)) : List VoterRow :=
  ((rowsOf m).mergeSort leByPower).take 50

/-- V2 `topPerCategory`: rows, sorted descending by stake with power as the
tie break, first 50. -/
def topPerCategoryV2 (m : List (Option String × Acc)) : List VoterRow :=
  ((rowsOf m).mergeSort leByStakePower).take 50

/-! ## Observable contents of the aggregation state

For the order-independence claim the association lists are observed through
`jsGet`: two runs are considered equal when every category total, the total
power, every per-voter accumulator and every delegation-source total agree. -/

/-- How a single event acts on the state: skipped, a direct vote, or a
delegated vote (with resolved option, voter key, stake, power and source
label). -/
inductive EvAction where
  | skip
  | voteAct (o : VoteOption) (key : Option String) (st p : Nat)
  | delegAct (o : VoteOption) (key : Option String) (st p : Nat) (lbl : String)

/-- Classification of an event by the branch of the loop body it takes,
with the decoded parameters. -/
def classify (e : RawEvent) : EvAction :=
  let t := e.topics
  if t.length = 0 then .skip
  else if e.identifier = "vote" then
    .voteAct (decodeOption (topic t 1)) e.address
      (hexToBigInt (topic t 2)) (hexToBigInt (topic t 3))
  else if e.identifier = "delegateVote" then
    .delegAct (decodeOption (topic t 1))
      ((t.get? 2).map (fun h => (hexToBech32Erd h).getD h))
      (hexToBigInt (topic t 3)) (hexToBigInt (topic t 4))
      (delegationLabel (e.address.getD "others"))
  else .skip

/-- The observable contents of a V1 state. -/
structure ObsV1 where
  byOption : Per5 OptionAgg
  totalPower : Nat
  perCat : Per5 (Option String → Option Acc)
  delegPower : String → Option Nat
  delegCount : String → Option Nat

/-- Observation of a V1 state: totals as they are, maps as lookup
functions. -/
def obsV1 (s : StateV1) : ObsV1 :=
  ⟨s.byOption, s.totalPower, s.perCat.mapAll (fun m k => jsGet m k),
   fun l => jsGet s.delegPower l, fun l => jsGet s.delegCount l⟩

/-- The observable contents of a V2 state. -/
structure ObsV2 where
  byOption : Per5 OptionAgg
  totalPower : Nat
  perCat : Per5 (Option String → Option Acc)
  delegPower : String → Option Nat

/-- Observation of a V2 state. -/
def obsV2 (s : StateV2) : ObsV2 :=
  ⟨s.byOption, s.totalPower, s.perCat.mapAll (fun m k => jsGet m k),
   fun l => jsGet s.delegPower l⟩

/-- The per-voter read–modify–write at the observation level. -/
def updVoterF (g : Option String → Option Acc) (k : Option String) (st p : Nat) :
    Option String → Option Acc :=
  Function.update g k (some (accAdd ((g k).getD zeroAcc) st p))

/-- The delegation-breakdown read–modify–write at the observation level. -/
def updDelegF (d : String → Option Nat) (lbl : String) (inc : Nat) : String → Option Nat :=
  Function.update d lbl (some ((d lbl).getD 0 + inc))

/-- The action of one classified event on V1 observations. -/
def absActV1 (a : ObsV1) : EvAction → ObsV1
  | .skip => a
  | .voteAct o key st p =>
    { a with byOption := a.byOption.modify o (fun x => aggAdd x p),
             totalPower := a.totalPower + p,
             perCat := a.perCat.modify o (fun g => updVoterF g key st p) }
  | .delegAct o key st p lbl =>
    { a with byOption := a.byOption.modify o (fun x => aggAdd x p),
             totalPower := a.totalPower + p,
             perCat := a.perCat.modify o (fun g => updVoterF g key st p),
             delegPower := updDelegF a.delegPower lbl p,
             delegCount := updDelegF a.delegCount lbl 1 }

/-- The action of one event on V1 observations. -/
def absStepV1 (a : ObsV1) (e : RawEvent) : ObsV1 := absActV1 a (classify e)

/-- The action of one classified event on V2 observations. -/
def absActV2 (a : ObsV2) : EvAction → ObsV2
  | .skip => a
  | .voteAct o _ _ p =>
    { a with byOption := a.byOption.modify o (fun x => aggAdd x p),
             totalPower := a.totalPower + p }
  | .delegAct o key st p lbl =>
    { a with byOption := a.byOption.modify o (fun x => aggAdd x p),
             totalPower := a.totalPower + p,
             perCat := a.perCat.modify o (fun g => updVoterF g key st p),
             delegPower := updDelegF a.delegPower lbl p }

/-- The action of one event on V2 observations. -/
def absStepV2 (a : ObsV2) (e : RawEvent) : ObsV2 := absActV2 a (classify e)

/-- Sum of the five category powers. -/
def sumPowers (x : Per5 OptionAgg) : Nat :=
  x.yes.power + x.no.power + x.abstain.power + x.veto.power + x.unknown.power

/-- Sum of the `power` fields over a per-voter map. -/
def mapPowerSum (m : List (Option String × Acc)) : Nat :=
  (m.map (fun kv => kv.2.power)).sum

/-! ## Theorems.  Groundwork for the chunking structure (C5, C4, C10) -/

theorem isHexDigitChar_toNat {c : Char} (h : isHexDigitChar c = true) :
    (48 ≤ c.toNat ∧ c.toNat ≤ 57) ∨ (97 ≤ c.toNat ∧ c.toNat ≤ 102) ∨
    (65 ≤ c.toNat ∧ c.toNat ≤ 70) := by
  have := h
  simp only [isHexDigitChar, Bool.or_eq_true, Bool.and_eq_true, decide_eq_true_eq] at this
  tauto

theorem toNat_ne {c d : Char} (h : c.toNat ≠ d.toNat) : c ≠ d :=
  fun he => h (he ▸ rfl)

theorem hex_not_lineTerm {c : Char} (h : isHexDigitChar c = true) :
    isLineTerm c = false := by
  have := isHexDigitChar_toNat h
  simp only [isLineTerm, Bool.or_eq_false_iff, beq_eq_false_iff_ne, ne_eq]
  omega

theorem hex_not_ws {c : Char} (h : isHexDigitChar c = true) : isWsChar c = false := by
  have := isHexDigitChar_toNat h
  simp only [isWsChar, Bool.or_eq_false_iff, beq_eq_false_iff_ne, ne_eq]
  omega

theorem hex_ne_minus {c : Char} (h : isHexDigitChar c = true) : c ≠ '-' :=
  toNat_ne (by have := isHexDigitChar_toNat h; have h45 : ('-').toNat = 45 := rfl; omega)

theorem hex_ne_plus {c : Char} (h : isHexDigitChar c = true) : c ≠ '+' :=
  toNat_ne (by have := isHexDigitChar_toNat h; have h43 : ('+').toNat = 43 := rfl; omega)

theorem hex_ne_x {c : Char} (h : isHexDigitChar c = true) : c ≠ 'x' :=
  toNat_ne (by have := isHexDigitChar_toNat h; have hx : ('x').toNat = 120 := rfl; omega)

theorem hex_ne_X {c : Char} (h : isHexDigitChar c = true) : c ≠ 'X' :=
  toNat_ne (by have := isHexDigitChar_toNat h; have hX : ('X').toNat = 88 := rfl; omega)

/-- On input without line terminators the chunking regex is exactly
pairing-from-the-left. -/
theorem chunkPairs_eq_pairUp :
    ∀ l : List Char, (∀ c ∈ l, isLineTerm c = false) → chunkPairs l = pairUp l := by
  intro l
  induction l using pairUp.induct with
  | case1 => intro _; rfl
  | case2 c =>
    intro h
    simp [chunkPairs, pairUp, h c (by simp)]
  | case3 c₁ c₂ r ih =>
    intro h
    have h₁ := h c₁ (by simp)
    have h₂ := h c₂ (by simp)
    simp only [chunkPairs, pairUp, h₁, h₂, Bool.false_eq_true, if_false]
    exact congrArg _ (ih fun c hc => h c (by simp [hc]))

/-- Evaluation of `parseInt` on a single hex digit. -/
theorem parseIntHex16_single {c : Char} (h : isHexDigitChar c = true) :
    parseIntHex16 [c] = some ((hexDigitVal c : Nat) : Int) := by
  simp only [parseIntHex16, List.dropWhile, hex_not_ws h, Bool.false_eq_true, if_false]
  rw [if_neg (hex_ne_minus h), if_neg (hex_ne_plus h)]
  simp [parseHexMag, hexRunStart, hexRun, h]

/-- Evaluation of `parseInt` on two hex digits. -/
theorem parseIntHex16_pair {c₁ c₂ : Char} (h₁ : isHexDigitChar c₁ = true)
    (h₂ : isHexDigitChar c₂ = true) :
    parseIntHex16 [c₁, c₂] = some ((16 * hexDigitVal c₁ + hexDigitVal c₂ : Nat) : Int) := by
  simp only [parseIntHex16, List.dropWhile, hex_not_ws h₁, Bool.false_eq_true, if_false]
  rw [if_neg (hex_ne_minus h₁), if_neg (hex_ne_plus h₁)]
  have hnx : ¬(c₁ = '0' ∧ (c₂ = 'x' ∨ c₂ = 'X')) := by
    rintro ⟨-, hx | hX⟩
    · exact hex_ne_x h₂ hx
    · exact hex_ne_X h₂ hX
  simp only [parseHexMag]
  rw [if_neg hnx]
  simp [hexRunStart, h₁, h₂, hexRun]

/-- Appending a lone character to an even-length list adds a final
one-character chunk. -/
theorem pairUp_append_single :
    ∀ l : List Char, l.length % 2 = 0 → ∀ c, pairUp (l ++ [c]) = pairUp l ++ [[c]] := by
  intro l
  induction l using pairUp.induct with
  | case1 => intro _ c; rfl
  | case2 c₀ => intro h; simp at h
  | case3 c₁ c₂ r ih =>
    intro h c
    simp only [List.length_cons] at h
    have : r.length % 2 = 0 := by omega
    simp [pairUp, ih this c]

/-- C5 (counterexample): the inline byte-decoding does not left-pad a zero
nibble on odd length — on `"abc"` it produces bytes `[0xab, 0x0c]` while the
claimed left-padded pairing gives `[0x0a, 0xbc]` — and an input of invalid
characters (`"zz"`) yields a one-element `NaN` sequence, not the empty
sequence. -/
theorem spec_c5_counterexample :
    hexBytes "abc" = [some 171, some 12] ∧
    specHexToBytesLP "abc" = [10, 188] ∧
    hexBytes "abc" ≠ (specHexToBytesLP "abc").map (fun n => some ((n : Nat) : Int)) ∧
    hexBytes "zz" = [none] ∧ hexBytes "zz" ≠ [] := by
  refine ⟨by decide, by decide, by decide, by decide, by decide⟩

/-- C5 (amended): the byte-decoding step splits the string into
two-character chunks from the left, an odd length leaving a lone final
character whose nibble becomes the low-order final byte; a chunk whose
leading character is not a hex digit parses to `NaN` (`none`), so invalid
characters yield `NaN` bytes rather than an empty sequence, and no exception
is raised (the function is total). -/
theorem spec_c5_amended :
    (∀ l : List Char, (∀ c ∈ l, isLineTerm c = false) → chunkPairs l = pairUp l) ∧
    (∀ c₁ c₂ : Char, isHexDigitChar c₁ = true → isHexDigitChar c₂ = true →
      parseIntHex16 [c₁, c₂] = some ((16 * hexDigitVal c₁ + hexDigitVal c₂ : Nat) : Int)) ∧
    (∀ (l : List Char) (c : Char), (∀ x ∈ l, isHexDigitChar x = true) →
      isHexDigitChar c = true → l.length % 2 = 0 →
      hexBytes (String.mk (l ++ [c])) =
        hexBytes (String.mk l) ++ [some ((hexDigitVal c : Nat) : Int)]) ∧
    hexBytes "zz" = [none] := by
  refine ⟨chunkPairs_eq_pairUp, fun c₁ c₂ h₁ h₂ => parseIntHex16_pair h₁ h₂, ?_, by decide⟩
  intro l c hl hc hlen
  have hno : ∀ x ∈ l ++ [c], isLineTerm x = false := by
    intro x hx
    rcases List.mem_append.mp hx with hx | hx
    · exact hex_not_lineTerm (hl x hx)
    · simp only [List.mem_singleton] at hx
      exact hx ▸ hex_not_lineTerm hc
  have hno' : ∀ x ∈ l, isLineTerm x = false := fun x hx => hno x (by simp [hx])
  show (chunkPairs (l ++ [c])).map parseIntHex16 = (chunkPairs l).map parseIntHex16 ++ _
  rw [chunkPairs_eq_pairUp _ hno, chunkPairs_eq_pairUp _ hno',
    pairUp_append_single l hlen c, List.map_append]
  simp [parseIntHex16_single hc]

/-- C5 (witness): the amended chunking facts instantiated on concrete
inputs. -/
theorem spec_c5_witness :
    chunkPairs ['a', 'b', 'c'] = pairUp ['a', 'b', 'c'] ∧
    parseIntHex16 ['a', 'b'] = some 171 ∧
    hexBytes (String.mk (['a', 'b'] ++ ['c'])) = hexBytes (String.mk ['a', 'b']) ++ [some 12] :=
  ⟨spec_c5_amended.1 ['a', 'b', 'c'] (by decide),
   by rw [spec_c5_amended.2.1 'a' 'b' (by decide) (by decide)]; rfl,
   by rw [spec_c5_amended.2.2.1 ['a', 'b'] 'c' (by decide) (by decide) (by decide)]; rfl⟩

/-- C6: `decodeOption` never fails and factors through the lower-cased ASCII
decode (so it is case-insensitive); the historical encodings `veto`, `ncv`
and `veto_power` (any letter case) all map to Veto; `yes`, `no`, `abstain`
map to their options; and everything else — including the empty string and
malformed hex — maps to Unknown. -/
theorem spec_c6_decode_option :
    (∀ h₁ h₂ : String, strLower (hexToAscii h₁) = strLower (hexToAscii h₂) →
      decodeOption h₁ = decodeOption h₂) ∧
    decodeOption "4e4356" = .veto ∧ decodeOption "4E4356" = .veto ∧
    decodeOption "6e6376" = .veto ∧ decodeOption "7665746f5f706f776572" = .veto ∧
    decodeOption "5645544f5f504f574552" = .veto ∧ decodeOption "5665746f" = .veto ∧
    decodeOption "7665746f" = .veto ∧ decodeOption "796573" = .yes ∧
    decodeOption "594553" = .yes ∧ decodeOption "6e6f" = .no ∧
    decodeOption "6162737461696e" = .abstain ∧ decodeOption "" = .unknown ∧
    decodeOption "zz" = .unknown ∧ decodeOption "67617262616765" = .unknown ∧
    (∀ hex : String,
      strLower (hexToAscii hex) ∉ (["yes", "no", "abstain", "veto", "ncv", "veto_power"] : List String) →
      decodeOption hex = .unknown) := by
  refine ⟨?_, by decide, by decide, by decide, by decide, by decide, by decide, by decide,
    by decide, by decide, by decide, by decide, by decide, by decide, by decide, ?_⟩
  · intro h₁ h₂ h
    simp only [decodeOption]
    rw [h]
  · intro hex h
    simp only [List.mem_cons, List.not_mem_nil, or_false, not_or] at h
    obtain ⟨n1, n2, n3, n4, n5, n6⟩ := h
    simp only [decodeOption]
    rw [if_neg n1, if_neg n2, if_neg n3, if_neg (by tauto)]

/-- C6 (witness): case-insensitivity and the Unknown fallback applied at
concrete inputs. -/
theorem spec_c6_witness :
    decodeOption "4E4356" = decodeOption "6e6376" ∧ decodeOption "7a7a" = .unknown :=
  ⟨spec_c6_decode_option.1 "4E4356" "6e6376" (by decide),
   spec_c6_decode_option.2.2.2.2.2.2.2.2.2.2.2.2.2.2.2 "7a7a" (by decide)⟩

/-! ## `convertBits` theory (C7, C10) -/

theorem shl_or_add (a v f : Nat) (hv : v < 2 ^ f) : (a <<< f) ||| v = a * 2 ^ f + v := by
  apply Nat.eq_of_testBit_eq
  intro i
  rw [Nat.testBit_or, Nat.testBit_shiftLeft]
  have hc : a * 2 ^ f + v = 2 ^ f * a + v := by ring
  rw [hc, Nat.testBit_mul_pow_two_add a hv]
  by_cases h : i < f
  · simp [h, Nat.not_le.mpr h]
  · have hf : f ≤ i := Nat.not_lt.mp h
    have hvb : v.testBit i = false :=
      Nat.testBit_lt_two_pow (lt_of_lt_of_le hv (Nat.pow_le_pow_right (by norm_num) hf))
    simp [h, hf, hvb]

theorem highBitsShr (a b m s : Nat) (hb : b < 2 ^ m) :
    (a * 2 ^ m + b) >>> (s + m) = a >>> s := by
  rw [Nat.shiftRight_eq_div_pow, Nat.shiftRight_eq_div_pow, pow_add,
    mul_comm (2 ^ s) (2 ^ m), ← Nat.div_div_eq_div_mul]
  congr 1
  rw [mul_comm a (2 ^ m), Nat.mul_add_div (by positivity),
    Nat.div_eq_of_lt hb, Nat.add_zero]

theorem shl_shr (x s t : Nat) (h : s ≤ t) : (x <<< s) >>> t = x >>> (t - s) := by
  rw [Nat.shiftLeft_eq, Nat.shiftRight_eq_div_pow, Nat.shiftRight_eq_div_pow]
  have ht : 2 ^ t = 2 ^ s * 2 ^ (t - s) := by
    rw [← pow_add]
    congr 1
    omega
  rw [ht, ← Nat.div_div_eq_div_mul, Nat.mul_div_cancel _ (by positivity)]

theorem bigVal_foldl (frm : Nat) :
    ∀ (data : List Int) (a : Nat),
      data.foldl (fun x v => x * 2 ^ frm + v.toNat) a =
        a * 2 ^ (frm * data.length) + bigVal frm data := by
  intro data
  induction data with
  | nil => intro a; simp [bigVal]
  | cons v rest ih =>
    intro a
    show List.foldl _ (a * 2 ^ frm + v.toNat) rest = _
    rw [ih]
    have h2 : bigVal frm (v :: rest) = v.toNat * 2 ^ (frm * rest.length) + bigVal frm rest := by
      show List.foldl _ (0 * 2 ^ frm + v.toNat) rest = _
      rw [ih]
      simp
    rw [h2, List.length_cons]
    have hp : 2 ^ (frm * (rest.length + 1)) = 2 ^ (frm * rest.length) * 2 ^ frm := by ring
    rw [hp]
    ring

theorem bigVal_cons (frm : Nat) (v : Int) (rest : List Int) :
    bigVal frm (v :: rest) = v.toNat * 2 ^ (frm * rest.length) + bigVal frm rest := by
  show List.foldl _ (0 * 2 ^ frm + v.toNat) rest = _
  rw [bigVal_foldl]
  simp

theorem bigVal_lt (frm : Nat) :
    ∀ data : List Int, (∀ v ∈ data, v.toNat < 2 ^ frm) →
      bigVal frm data < 2 ^ (frm * data.length) := by
  intro data
  induction data with
  | nil => intro _; simp [bigVal]
  | cons v rest ih =>
    intro h
    rw [bigVal_cons, List.length_cons]
    have h1 : v.toNat < 2 ^ frm := h v (by simp)
    have h2 := ih (fun x hx => h x (by simp [hx]))
    calc v.toNat * 2 ^ (frm * rest.length) + bigVal frm rest
        < v.toNat * 2 ^ (frm * rest.length) + 2 ^ (frm * rest.length) := by omega
      _ = (v.toNat + 1) * 2 ^ (frm * rest.length) := by ring
      _ ≤ 2 ^ frm * 2 ^ (frm * rest.length) := Nat.mul_le_mul_right _ (by omega)
      _ = 2 ^ (frm * (rest.length + 1)) := by ring

theorem convBody_none_iff (frm tb maxv : Nat) :
    ∀ (data : List Int) (acc bits : Nat),
      convBody frm tb maxv data acc bits = none ↔
        ∃ v ∈ data, v < 0 ∨ v.toNat >>> frm ≠ 0 := by
  intro data
  induction data with
  | nil => intro acc bits; simp [convBody]
  | cons v rest ih =>
    intro acc bits
    by_cases h : v < 0 ∨ v.toNat >>> frm ≠ 0
    · constructor
      · intro _
        exact ⟨v, by simp, h⟩
      · intro _
        simp [convBody, h]
    · constructor
      · intro hn
        simp only [convBody, if_neg h, Option.map_eq_none'] at hn
        obtain ⟨x, hx, hbad⟩ := (ih _ _).mp hn
        exact ⟨x, by simp [hx], hbad⟩
      · rintro ⟨x, hx, hbad⟩
        rcases List.mem_cons.mp hx with rfl | hx'
        · exact absurd hbad h
        · simp only [convBody, if_neg h, Option.map_eq_none']
          exact (ih _ _).mpr ⟨x, hx', hbad⟩

theorem bad_iff (frm : Nat) (v : Int) :
    (v < 0 ∨ v.toNat >>> frm ≠ 0) ↔ (v < 0 ∨ (2 ^ frm : Int) ≤ v) := by
  rcases lt_or_le v 0 with hv | hv
  · simp [hv]
  · have h0 : ¬v < 0 := not_lt.mpr hv
    simp only [h0, false_or]
    rw [Nat.shiftRight_eq_div_pow, ne_eq, Nat.div_eq_zero_iff (by positivity), not_lt]
    constructor
    · intro h
      calc (2 ^ frm : Int) = ((2 ^ frm : Nat) : Int) := by push_cast; ring
        _ ≤ (v.toNat : Int) := by exact_mod_cast h
        _ = v := Int.toNat_of_nonneg hv
    · intro h
      have : ((2 ^ frm : Nat) : Int) ≤ (v.toNat : Int) := by
        rw [Int.toNat_of_nonneg hv]
        push_cast
        exact h
      exact_mod_cast this

theorem convBody_valid (frm tb : Nat) (htb : 0 < tb) :
    ∀ (data : List Int) (acc bits : Nat), bits < tb →
      (∀ v ∈ data, 0 ≤ v ∧ v.toNat < 2 ^ frm) →
      convBody frm tb (2 ^ tb - 1) data acc bits =
        some (acc * 2 ^ (frm * data.length) + bigVal frm data,
          (bits + frm * data.length) % tb,
          (List.range ((bits + frm * data.length) / tb)).map
            (fun i => ((acc * 2 ^ (frm * data.length) + bigVal frm data) >>>
              (bits + frm * data.length - (i + 1) * tb)) &&& (2 ^ tb - 1))) := by
  intro data
  induction data with
  | nil =>
    intro acc bits hb _
    have hd : bits / tb = 0 := (Nat.div_eq_zero_iff htb).mpr hb
    simp [convBody, bigVal, Nat.mod_eq_of_lt hb, hd]
  | cons v rest ih =>
    intro acc bits hb hval
    obtain ⟨hv0, hvlt⟩ := hval v (by simp)
    have hvrest : ∀ x ∈ rest, 0 ≤ x ∧ x.toNat < 2 ^ frm := fun x hx => hval x (by simp [hx])
    have hguard : ¬(v < 0 ∨ v.toNat >>> frm ≠ 0) := by
      push_neg
      exact ⟨hv0, by
        rw [Nat.shiftRight_eq_div_pow]
        exact (Nat.div_eq_zero_iff (by positivity)).mpr hvlt⟩
    have hacc' : (acc <<< frm) ||| v.toNat = acc * 2 ^ frm + v.toNat := shl_or_add _ _ _ hvlt
    simp only [convBody, if_neg hguard, hacc', emitGroups,
      ih _ _ (Nat.mod_lt _ htb) hvrest, Option.map_some']
    -- abbreviations
    set A := bits + frm with hA
    set B := frm * rest.length with hB
    set K₁ := A / tb with hK₁
    set r := A % tb with hr
    have hDM : tb * K₁ + r = A := Nat.div_add_mod A tb
    have hrest_lt : bigVal frm rest < 2 ^ B := bigVal_lt frm rest (fun x hx => (hvrest x hx).2)
    -- final accumulator
    have haccT : (acc * 2 ^ frm + v.toNat) * 2 ^ B + bigVal frm rest
        = acc * 2 ^ (frm * (v :: rest).length) + bigVal frm (v :: rest) := by
      rw [bigVal_cons, List.length_cons]
      have hp : 2 ^ (frm * (rest.length + 1)) = 2 ^ B * 2 ^ frm := by
        rw [hB]
        ring
      rw [hp]
      ring
    -- bits counter
    have hbitsT : (r + B) % tb = (bits + frm * (v :: rest).length) % tb := by
      rw [hr, Nat.mod_add_mod, List.length_cons]
      congr 1
      rw [hA, hB]
      ring
    -- index arithmetic for the emitted list
    have hlen : bits + frm * (v :: rest).length = A + B := by
      rw [hA, hB, List.length_cons]
      ring
    have hK : (A + B) / tb = K₁ + (r + B) / tb := by
      conv_lhs => rw [← hDM, Nat.add_assoc]
      rw [Nat.mul_add_div htb]
    have hlist :
        ((List.range ((bits + frm) / tb)).map
            (fun i => ((acc * 2 ^ frm + v.toNat) >>> (bits + frm - (i + 1) * tb)) &&& (2 ^ tb - 1))) ++
          ((List.range ((r + B) / tb)).map
            (fun i => (((acc * 2 ^ frm + v.toNat) * 2 ^ B + bigVal frm rest) >>>
              (r + B - (i + 1) * tb)) &&& (2 ^ tb - 1))) =
          (List.range ((bits + frm * (v :: rest).length) / tb)).map
            (fun i => (((acc * 2 ^ frm + v.toNat) * 2 ^ B + bigVal frm rest) >>>
              (bits + frm * (v :: rest).length - (i + 1) * tb)) &&& (2 ^ tb - 1)) := by
      rw [hlen, hK, List.range_add, List.map_append, List.map_map]
      congr 1
      · apply List.map_congr_left
        intro i hi
        have hiK : i < K₁ := List.mem_range.mp hi
        have hle : (i + 1) * tb ≤ A := by
          calc (i + 1) * tb ≤ K₁ * tb := Nat.mul_le_mul_right _ (by omega)
            _ = tb * K₁ := by ring
            _ ≤ A := by omega
        have hsub : A + B - (i + 1) * tb = (A - (i + 1) * tb) + B := by omega
        rw [hsub, highBitsShr _ _ _ _ hrest_lt]
      · apply List.map_congr_left
        intro i hi
        simp only [Function.comp_apply]
        congr 2
        have h1 : (K₁ + i + 1) * tb = K₁ * tb + (i + 1) * tb := by ring
        have h2 : tb * K₁ = K₁ * tb := by ring
        omega
    refine congrArg some ?_
    rw [← haccT, ← hbitsT, ← hlist]

/-- Function `convertBits` with padding on valid data computes exactly the padded
regrouping `groupPad`. -/
theorem convertBits_pad_eq_groupPad (frm tb : Nat) (htb : 0 < tb) (data : List Int)
    (hval : ∀ v ∈ data, 0 ≤ v ∧ v.toNat < 2 ^ frm) :
    convertBits data frm tb true = some (groupPad frm tb data) := by
  simp only [convertBits, groupPad, Nat.one_shiftLeft,
    convBody_valid frm tb htb data 0 0 htb hval, zero_mul, zero_add,
    eq_self_iff_true, if_true]
  set n := data.length with hn
  set K := frm * n / tb with hK
  set r := frm * n % tb with hr
  have hDM : tb * K + r = frm * n := Nat.div_add_mod _ tb
  have hrtb : r < tb := Nat.mod_lt _ htb
  by_cases h0 : r = 0
  · -- exact multiple of tb: no pad element
    have hbigN : (frm * n + (tb - 1)) / tb = K := by
      have he : frm * n + (tb - 1) = tb * K + (tb - 1) := by omega
      rw [he, Nat.mul_add_div htb, Nat.div_eq_of_lt (by omega), Nat.add_zero]
    rw [if_neg (fun hh => hh h0), hbigN, h0, Nat.sub_zero, Nat.mod_self,
      Nat.shiftLeft_zero, List.append_nil]
    refine congrArg some ?_
    apply List.map_congr_left
    intro i hi
    have hiK : i < K := List.mem_range.mp hi
    congr 2
    have h1 : tb * (K - 1 - i) = tb * K - tb * (1 + i) := by
      rw [← Nat.mul_sub]
      congr 1
      omega
    have h2 : (i + 1) * tb = tb * (1 + i) := by ring
    omega
  · -- leftover bits: one zero-filled pad element
    have hbigN : (frm * n + (tb - 1)) / tb = K + 1 := by
      have he : frm * n + (tb - 1) = tb * K + (tb + (r - 1)) := by omega
      rw [he, Nat.mul_add_div htb]
      have h1 : (tb + (r - 1)) / tb = 1 + (r - 1) / tb := by
        have := Nat.mul_add_div htb 1 (r - 1)
        simpa using this
      rw [h1, Nat.div_eq_of_lt (by omega)]
    have hpv : (tb - r) % tb = tb - r := Nat.mod_eq_of_lt (by omega)
    rw [if_pos h0, hbigN, hpv, List.range_succ, List.map_append]
    refine congrArg some ?_
    congr 1
    · apply List.map_congr_left
      intro i hi
      have hiK : i < K := List.mem_range.mp hi
      have hsl : K + 1 - 1 - i = K - i := by omega
      have hge : tb - r ≤ tb * (K - i) := by
        calc tb - r ≤ tb := by omega
          _ = tb * 1 := by ring
          _ ≤ tb * (K - i) := Nat.mul_le_mul_left _ (by omega)
      rw [hsl, shl_shr _ _ _ hge]
      congr 2
      have h1 : tb * (K - i) = tb * K - tb * i := by rw [← Nat.mul_sub]
      have h2 : (i + 1) * tb = tb * i + tb := by ring
      omega
    · have h1 : K + 1 - 1 - K = 0 := by omega
      simp [h1]

/-- Without padding, on valid data `convertBits` keeps the final accumulator
bits; the rejection test `(acc << (to - bits)) & maxv` is exactly "the low
`bits` bits of the accumulator are non-zero". -/
theorem shl_mask_ne_zero_iff (x r tb : Nat) (hr : r < tb) :
    (((x <<< (tb - r)) &&& (2 ^ tb - 1)) ≠ 0) ↔ x % 2 ^ r ≠ 0 := by
  rw [Nat.shiftLeft_eq, Nat.and_pow_two_sub_one_eq_mod]
  have htb : 2 ^ tb = 2 ^ r * 2 ^ (tb - r) := by
    rw [← pow_add]
    congr 1
    omega
  rw [htb, Nat.mul_mod_mul_right]
  constructor
  · intro h hx
    exact h (by rw [hx, zero_mul])
  · intro h hx
    rcases Nat.mul_eq_zero.mp hx with h1 | h1
    · exact h h1
    · exact absurd h1 (by positivity)

theorem convertBits_nopad_none_iff (frm tb : Nat) (htb : 0 < tb) (data : List Int) :
    (convertBits data frm tb false = none ↔
      (∃ v ∈ data, v < 0 ∨ (2 ^ frm : Int) ≤ v) ∨
        frm ≤ (frm * data.length) % tb ∨
        bigVal frm data % 2 ^ ((frm * data.length) % tb) ≠ 0) := by
  by_cases hbad : ∃ v ∈ data, v < 0 ∨ v.toNat >>> frm ≠ 0
  · have hnone : convBody frm tb ((1 <<< tb) - 1) data 0 0 = none :=
      (convBody_none_iff frm tb _ data 0 0).mpr hbad
    have hbad' : ∃ v ∈ data, v < 0 ∨ (2 ^ frm : Int) ≤ v := by
      obtain ⟨v, hv, h⟩ := hbad
      exact ⟨v, hv, (bad_iff frm v).mp h⟩
    simp [convertBits, hnone, hbad']
  · have hval : ∀ v ∈ data, 0 ≤ v ∧ v.toNat < 2 ^ frm := by
      intro v hv
      have h : ¬(v < 0 ∨ v.toNat >>> frm ≠ 0) := fun h' => hbad ⟨v, hv, h'⟩
      push_neg at h
      obtain ⟨h1, h2⟩ := h
      refine ⟨h1, ?_⟩
      rw [Nat.shiftRight_eq_div_pow] at h2
      exact (@Nat.div_eq_zero_iff _ (2 ^ frm) (by positivity)).mp h2
    have hbad' : ¬∃ v ∈ data, v < 0 ∨ (2 ^ frm : Int) ≤ v := by
      intro ⟨v, hv, h⟩
      exact hbad ⟨v, hv, (bad_iff frm v).mpr h⟩
    simp only [convertBits, Nat.one_shiftLeft,
      convBody_valid frm tb htb data 0 0 htb hval, zero_mul, zero_add, hbad', false_or,
      Bool.false_eq_true, if_false]
    have hmask := shl_mask_ne_zero_iff (bigVal frm data) ((frm * data.length) % tb) tb
      (Nat.mod_lt _ htb)
    split_ifs with hc
    · constructor
      · intro _
        rcases hc with h | h
        · exact Or.inl h
        · exact Or.inr (hmask.mp h)
      · intro _
        rfl
    · constructor
      · intro h
        exact absurd h (by simp)
      · intro h
        rcases h with h | h
        · exact absurd (Or.inl h) hc
        · exact absurd (Or.inr (hmask.mpr h)) hc

theorem convertBits_pad_none_iff (data : List Int) (frm tb : Nat) :
    convertBits data frm tb true = none ↔ ∃ v ∈ data, v < 0 ∨ (2 ^ frm : Int) ≤ v := by
  have hiff := convBody_none_iff frm tb ((1 <<< tb) - 1) data 0 0
  constructor
  · intro h
    rcases hc : convBody frm tb ((1 <<< tb) - 1) data 0 0 with - | ⟨acc, bits, out⟩
    · obtain ⟨v, hv, hb⟩ := hiff.mp hc
      exact ⟨v, hv, (bad_iff frm v).mp hb⟩
    · simp [convertBits, hc] at h
  · intro ⟨v, hv, hb⟩
    have hnone : convBody frm tb ((1 <<< tb) - 1) data 0 0 = none :=
      hiff.mpr ⟨v, hv, (bad_iff frm v).mpr hb⟩
    simp [convertBits, hnone]

/-- C7: `convertBits` fails exactly when a value is negative or wider than
`fromBits` bits (with padding), or additionally when — without padding — the
leftover bits are at least `fromBits` wide or form a non-zero remainder; on
valid data with padding it returns exactly the regrouped `toBits`-wide
symbols of the concatenated bit string, the final group left-justified and
zero-filled (`groupPad`). -/
theorem spec_c7_convert_bits :
    (∀ (data : List Int) (frm tb : Nat), 0 < tb →
      (convertBits data frm tb true = none ↔
        ∃ v ∈ data, v < 0 ∨ (2 ^ frm : Int) ≤ v)) ∧
    (∀ (data : List Int) (frm tb : Nat), 0 < tb →
      (∀ v ∈ data, 0 ≤ v ∧ v.toNat < 2 ^ frm) →
      convertBits data frm tb true = some (groupPad frm tb data)) ∧
    (∀ (data : List Int) (frm tb : Nat), 0 < tb →
      (convertBits data frm tb false = none ↔
        (∃ v ∈ data, v < 0 ∨ (2 ^ frm : Int) ≤ v) ∨
          frm ≤ (frm * data.length) % tb ∨
          bigVal frm data % 2 ^ ((frm * data.length) % tb) ≠ 0)) :=
  ⟨fun data frm tb _ => convertBits_pad_none_iff data frm tb,
   fun data frm tb htb hval => convertBits_pad_eq_groupPad frm tb htb data hval,
   fun data frm tb htb => convertBits_nopad_none_iff frm tb htb data⟩

/-- C7 (witness): the three characterizations at concrete inputs (an
overwide value, a valid two-byte regrouping, and a rejected non-zero
remainder without padding). -/
theorem spec_c7_witness :
    convertBits [300] 8 5 true = none ∧
    convertBits [1, 2] 8 5 true = some (groupPad 8 5 [1, 2]) ∧
    convertBits [255] 8 5 false = none :=
  ⟨(spec_c7_convert_bits.1 [300] 8 5 (by norm_num)).mpr
      ⟨300, by simp, Or.inr (by norm_num)⟩,
   spec_c7_convert_bits.2.1 [1, 2] 8 5 (by norm_num) (by decide),
   (spec_c7_convert_bits.2.2 [255] 8 5 (by norm_num)).mpr
      (Or.inr (Or.inr (by decide)))⟩

/-! ## Shape of successfully encoded addresses (C10, C4) -/

theorem pairUp_even :
    ∀ l : List Char, l.length % 2 = 0 →
      (pairUp l).length = l.length / 2 ∧
        ∀ ch ∈ pairUp l, ∃ c₁ c₂, c₁ ∈ l ∧ c₂ ∈ l ∧ ch = [c₁, c₂] := by
  intro l
  induction l using pairUp.induct with
  | case1 => intro _; simp [pairUp]
  | case2 c => intro h; simp at h
  | case3 c₁ c₂ r ih =>
    intro h
    simp only [List.length_cons] at h
    obtain ⟨ihlen, ihmem⟩ := ih (by omega)
    constructor
    · simp only [pairUp, List.length_cons, ihlen]
      omega
    · intro ch hch
      rcases List.mem_cons.mp hch with rfl | hch'
      · exact ⟨c₁, c₂, by simp, by simp, rfl⟩
      · obtain ⟨d₁, d₂, hd₁, hd₂, he⟩ := ihmem ch hch'
        exact ⟨d₁, d₂, by simp [hd₁], by simp [hd₂], he⟩

theorem hexDigitVal_lt (c : Char) : hexDigitVal c < 16 := by
  unfold hexDigitVal
  split_ifs with h1 h2 h3 <;>
    simp only [Bool.and_eq_true, decide_eq_true_eq] at * <;> omega

theorem and_mask_lt (x n : Nat) (hn : 0 < n) : x &&& (2 ^ n - 1) < 2 ^ n := by
  rw [Nat.and_pow_two_sub_one_eq_mod]
  exact Nat.mod_lt _ (by positivity)

theorem groupPad_length (frm tb : Nat) (data : List Int) :
    (groupPad frm tb data).length = (frm * data.length + (tb - 1)) / tb := by
  simp [groupPad]

theorem groupPad_lt (frm tb : Nat) (htb : 0 < tb) (data : List Int) :
    ∀ s ∈ groupPad frm tb data, s < 2 ^ tb := by
  intro s hs
  simp only [groupPad, List.mem_map] at hs
  obtain ⟨i, -, rfl⟩ := hs
  exact and_mask_lt _ _ htb

theorem checksum_length (hrp : String) (data : List Nat) :
    (bech32CreateChecksum hrp data).length = 6 := by
  simp [bech32CreateChecksum]

theorem checksum_lt (hrp : String) (data : List Nat) :
    ∀ s ∈ bech32CreateChecksum hrp data, s < 32 := by
  intro s hs
  simp only [bech32CreateChecksum, List.mem_map] at hs
  obtain ⟨p, -, rfl⟩ := hs
  have h31 : (31 : Nat) = 2 ^ 5 - 1 := by norm_num
  rw [h31]
  exact and_mask_lt _ _ (by norm_num)

theorem alph_getD_mem (d : Nat) (hd : d < 32) :
    BECH32_ALPHABET.data.getD d '?' ∈ BECH32_ALPHABET.data := by
  have hlen : BECH32_ALPHABET.data.length = 32 := by decide
  have hd' : d < BECH32_ALPHABET.data.length := by omega
  rw [List.getD_eq_getElem?_getD, List.getElem?_eq_getElem hd']
  exact List.getElem_mem hd'

theorem bech32Encode_data (hrp : String) (data : List Nat) :
    (bech32Encode hrp data).data =
      hrp.data ++ '1' :: (data ++ bech32CreateChecksum hrp data).map
        (fun d => BECH32_ALPHABET.data.getD d '?') := by
  show (hrp ++ "1" ++ _).data = _
  rw [String.data_append, String.data_append, List.append_assoc]
  rfl

/-- C10: on 64 valid hex characters `hexToBech32Erd` succeeds; the
8-to-5-bit regrouping yields exactly 52 symbols, and the result is the fixed
prefix `erd1` followed by 52 data symbols and 6 checksum symbols from the
bech32 alphabet — 62 characters in total. -/
theorem spec_c10_encoded_shape :
    ∀ hex : String, hex.data.length = 64 → (∀ c ∈ hex.data, isHexDigitChar c = true) →
      ∃ five : List Nat,
        convertBits ((hexBytes hex).map (fun b => b.getD 0)) 8 5 true = some five ∧
        five.length = 52 ∧ (∀ s ∈ five, s < 32) ∧
        hexToBech32Erd hex = some (bech32Encode "erd" five) ∧
        (bech32Encode "erd" five).data.length = 62 ∧
        (bech32Encode "erd" five).data.take 4 = "erd1".data ∧
        ∀ c ∈ (bech32Encode "erd" five).data.drop 4, c ∈ BECH32_ALPHABET.data := by
  intro hex hlen hhex
  have hnl : ∀ c ∈ hex.data, isLineTerm c = false := fun c hc => hex_not_lineTerm (hhex c hc)
  have hchunks : chunkPairs hex.data = pairUp hex.data := chunkPairs_eq_pairUp _ hnl
  obtain ⟨hplen, hpmem⟩ := pairUp_even hex.data (by omega)
  -- the 32 parsed bytes are valid
  have hbytes_len : (hexBytes hex).length = 32 := by
    simp [hexBytes, hchunks, hplen, hlen]
  have hmapped : ∀ b ∈ (hexBytes hex).map (fun b => b.getD 0), 0 ≤ b ∧ b.toNat < 2 ^ 8 := by
    intro b hb
    simp only [hexBytes, hchunks, List.map_map, List.mem_map] at hb
    obtain ⟨ch, hch, rfl⟩ := hb
    obtain ⟨c₁, c₂, hc₁, hc₂, rfl⟩ := hpmem ch hch
    simp only [Function.comp_apply, parseIntHex16_pair (hhex c₁ hc₁) (hhex c₂ hc₂),
      Option.getD_some]
    have := hexDigitVal_lt c₁
    have := hexDigitVal_lt c₂
    constructor
    · positivity
    · rw [Int.toNat_ofNat]
      norm_num
      omega
  have hconv := convertBits_pad_eq_groupPad 8 5 (by norm_num)
    ((hexBytes hex).map (fun b => b.getD 0)) hmapped
  refine ⟨groupPad 8 5 ((hexBytes hex).map (fun b => b.getD 0)), hconv, ?_, ?_, ?_, ?_, ?_, ?_⟩
  · rw [groupPad_length, List.length_map, hbytes_len]
  · exact groupPad_lt 8 5 (by norm_num) _
  · have hne : ¬hex = "" := by
      intro h
      rw [h] at hlen
      simp at hlen
    simp only [hexToBech32Erd, if_neg hne, hbytes_len, if_neg (by omega : ¬(32 : Nat) ≠ 32),
      hconv]
  · rw [bech32Encode_data]
    simp only [List.length_append, List.length_cons, List.length_map, checksum_length,
      groupPad_length, List.length_map, hbytes_len]
    rfl
  · rw [bech32Encode_data]
    rfl
  · rw [bech32Encode_data]
    intro c hc
    have hdata : ("erd".data : List Char) = ['e', 'r', 'd'] := rfl
    rw [hdata] at hc
    simp only [List.cons_append, List.nil_append, List.drop_succ_cons, List.drop_zero] at hc
    simp only [List.mem_map] at hc
    obtain ⟨d, hd, rfl⟩ := hc
    rcases List.mem_append.mp hd with hd' | hd'
    · exact alph_getD_mem d (groupPad_lt 8 5 (by norm_num) _ d hd')
    · exact alph_getD_mem d (checksum_lt _ _ d hd')

/-- C10 (witness): the shape facts at the all-zero 32-byte input. -/
theorem spec_c10_witness :
    hexToBech32Erd (String.mk (List.replicate 64 '0')) =
      some (bech32Encode "erd" (List.replicate 52 0)) := by
  obtain ⟨five, hconv, -, -, henc, -, -, -⟩ :=
    spec_c10_encoded_shape (String.mk (List.replicate 64 '0')) (by decide) (by decide)
  have hfive : five = List.replicate 52 0 := by
    have : convertBits ((hexBytes (String.mk (List.replicate 64 '0'))).map
        (fun b => b.getD 0)) 8 5 true = some (List.replicate 52 0) := by decide
    rw [this] at hconv
    exact (Option.some_injective _ hconv.symm)
  rw [henc, hfive]

theorem chunkPairs_chunk_len :
    ∀ l : List Char, ∀ ch ∈ chunkPairs l, ch.length ≤ 2 := by
  intro l
  induction l using chunkPairs.induct with
  | case1 =>
    intro ch hch
    simp [chunkPairs] at hch
  | case2 c hterm =>
    intro ch hch
    simp [chunkPairs, hterm] at hch
  | case3 c hterm =>
    intro ch hch
    simp only [chunkPairs, hterm, Bool.false_eq_true, if_false, List.mem_singleton] at hch
    simp [hch]
  | case4 c c₂ rest₂ hterm ih =>
    intro ch hch
    simp only [chunkPairs, hterm, if_true] at hch
    exact ih ch hch
  | case5 c c₂ rest₂ hterm hterm₂ ih =>
    intro ch hch
    simp only [chunkPairs, hterm, hterm₂, Bool.false_eq_true, if_false, if_true,
      List.mem_cons] at hch
    rcases hch with rfl | hch'
    · simp
    · exact ih ch hch'
  | case6 c c₂ rest₂ hterm hterm₂ ih =>
    intro ch hch
    simp only [chunkPairs, hterm, hterm₂, Bool.false_eq_true, if_false, List.mem_cons] at hch
    rcases hch with rfl | hch'
    · simp
    · exact ih ch hch'

theorem hexRun_lt : ∀ (l : List Char) (a : Nat), hexRun a l < (a + 1) * 16 ^ l.length := by
  intro l
  induction l with
  | nil => intro a; simp [hexRun]
  | cons c r ih =>
    intro a
    rw [hexRun]
    split_ifs with h
    · have h1 := ih (16 * a + hexDigitVal c)
      have h2 := hexDigitVal_lt c
      calc hexRun (16 * a + hexDigitVal c) r
          < (16 * a + hexDigitVal c + 1) * 16 ^ r.length := h1
        _ ≤ ((a + 1) * 16) * 16 ^ r.length := Nat.mul_le_mul_right _ (by omega)
        _ = (a + 1) * 16 ^ (r.length + 1) := by ring
        _ = (a + 1) * 16 ^ (c :: r).length := by rw [List.length_cons]
    · calc a < (a + 1) * 1 := by omega
        _ ≤ (a + 1) * 16 ^ (c :: r).length := Nat.mul_le_mul_left _ (Nat.one_le_pow _ _ (by norm_num))

theorem hexRunStart_lt (l : List Char) (v : Nat) (h : hexRunStart l = some v) :
    v < 16 ^ l.length := by
  rcases l with - | ⟨c, r⟩
  · simp [hexRunStart] at h
  · rw [hexRunStart] at h
    split_ifs at h with hd
    obtain rfl := Option.some_inj.mp h.symm
    have h1 := hexRun_lt (c :: r) 0
    simpa using h1

theorem parseHexMag_lt (l : List Char) (v : Nat) (h : parseHexMag l = some v) :
    v < 16 ^ l.length := by
  rcases l with - | ⟨c₀, - | ⟨c₁, r⟩⟩
  · exact hexRunStart_lt [] v h
  · exact hexRunStart_lt [c₀] v h
  · rw [parseHexMag] at h
    split_ifs at h with hx
    · have h1 := hexRunStart_lt r v h
      calc v < 16 ^ r.length := h1
        _ ≤ 16 ^ (c₀ :: c₁ :: r).length :=
          Nat.pow_le_pow_right (by norm_num) (by simp only [List.length_cons]; omega)
    · exact hexRunStart_lt (c₀ :: c₁ :: r) v h

theorem parseIntHex16_lt_256 (ch : List Char) (hlen : ch.length ≤ 2) (v : Int)
    (h : parseIntHex16 ch = some v) : v < 256 := by
  have hdl : (ch.dropWhile isWsChar).length ≤ 2 :=
    le_trans (List.dropWhile_sublist _).length_le hlen
  rw [parseIntHex16] at h
  rcases hd : ch.dropWhile isWsChar with - | ⟨c, r⟩
  · rw [hd] at h
    simp at h
  · rw [hd] at h
    rw [hd, List.length_cons] at hdl
    simp only at h
    split_ifs at h with h1 h2
    · obtain ⟨n, -, rfl⟩ := Option.map_eq_some'.mp h
      have hcast : Int.ofNat n = (n : Int) := rfl
      rw [hcast]
      omega
    · obtain ⟨n, hn, rfl⟩ := Option.map_eq_some'.mp h
      have hb := parseHexMag_lt r n hn
      have hr2 : (16 : Nat) ^ r.length ≤ 256 := by
        calc (16 : Nat) ^ r.length ≤ 16 ^ 2 := Nat.pow_le_pow_right (by norm_num) (by omega)
          _ = 256 := by norm_num
      have hcast : Int.ofNat n = (n : Int) := rfl
      rw [hcast]
      omega
    · obtain ⟨n, hn, rfl⟩ := Option.map_eq_some'.mp h
      have hb := parseHexMag_lt (c :: r) n hn
      rw [List.length_cons] at hb
      have hr2 : (16 : Nat) ^ (r.length + 1) ≤ 256 := by
        calc (16 : Nat) ^ (r.length + 1) ≤ 16 ^ 2 :=
              Nat.pow_le_pow_right (by norm_num) (by omega)
          _ = 256 := by norm_num
      have hcast : Int.ofNat n = (n : Int) := rfl
      rw [hcast]
      omega

set_option maxRecDepth 8000 in
/-- C4 (counterexample): a 64-character input consisting entirely of the
non-hex character `z` does not make `hexToBech32Erd` fail — every chunk
parses to `NaN`, which flows through `convertBits` as a zero byte, and the
all-zero 32-byte address is produced. -/
theorem spec_c4_counterexample :
    hexToBech32Erd (String.mk (List.replicate 64 'z')) =
      some "erd1qqqqqqqqqqqqqqqqqqqqqqqqqqqqqqqqqqqqqqqqqqqqqqqqqqqq6gq4hu" ∧
    hexToBech32Erd (String.mk (List.replicate 64 'z')) ≠ none := by
  constructor
  · decide
  · decide

/-- C4 (amended): `hexToBech32Erd` never raises, and it fails (returns the
`undefined` sentinel, modelled `none`) exactly when the input does not split
into 32 chunks — so empty and wrong-length inputs fail — or some chunk
parses to a negative number.  Chunks made of unparsable characters act as
zero bytes rather than failing, so an input containing non-hex characters
can still produce an encoded address. -/
theorem spec_c4_amended :
    ∀ hex : String,
      hexToBech32Erd hex = none ↔
        (chunkPairs hex.data).length ≠ 32 ∨
          ∃ ch ∈ chunkPairs hex.data, ∃ v : Int, parseIntHex16 ch = some v ∧ v < 0 := by
  intro hex
  by_cases hlen : (chunkPairs hex.data).length ≠ 32
  · constructor
    · intro _
      exact Or.inl hlen
    · intro _
      by_cases hne : hex = ""
      · simp [hexToBech32Erd, hne]
      · have hbl : (hexBytes hex).length ≠ 32 := by
          simpa [hexBytes] using hlen
        simp [hexToBech32Erd, hne, hbl]
  · push_neg at hlen
    have hne : hex ≠ "" := by
      intro h
      rw [h] at hlen
      simp [chunkPairs] at hlen
    have hbl : (hexBytes hex).length = 32 := by simpa [hexBytes] using hlen
    have hiff := convertBits_pad_none_iff ((hexBytes hex).map (fun b => b.getD 0)) 8 5
    constructor
    · intro h
      rcases hc : convertBits ((hexBytes hex).map (fun b => b.getD 0)) 8 5 true with - | five
      · obtain ⟨b, hb, hbad⟩ := hiff.mp hc
        simp only [hexBytes, List.map_map, List.mem_map] at hb
        obtain ⟨ch, hch, rfl⟩ := hb
        rcases hp : parseIntHex16 ch with - | v
        · rw [Function.comp_apply, hp] at hbad
          simp at hbad
        · rw [Function.comp_apply, hp] at hbad
          have hvlt : v < 256 :=
            parseIntHex16_lt_256 ch (chunkPairs_chunk_len hex.data ch hch) v hp
          refine Or.inr ⟨ch, hch, v, hp, ?_⟩
          simp only [Option.getD_some] at hbad
          rcases hbad with hneg | hge
          · exact hneg
          · exfalso
            have : (2 : Int) ^ 8 = 256 := by norm_num
            omega
      · simp [hexToBech32Erd, hne, hbl, hc] at h
    · intro h
      rcases h with h | ⟨ch, hch, v, hp, hvneg⟩
      · exact absurd hlen h
      · have hnone : convertBits ((hexBytes hex).map (fun b => b.getD 0)) 8 5 true = none := by
          apply hiff.mpr
          refine ⟨v, ?_, Or.inl hvneg⟩
          simp only [hexBytes, List.map_map, List.mem_map]
          exact ⟨ch, hch, by rw [Function.comp_apply, hp, Option.getD_some]⟩
        simp [hexToBech32Erd, hne, hbl, hnone]

/-! ## Checksum sensitivity (C8) -/

theorem and_one_ne_iff (x : Nat) : (x &&& 1 ≠ 0) ↔ x % 2 = 1 := by
  have h : x &&& 1 = x % 2 := Nat.and_pow_two_sub_one_eq_mod x 1
  rw [h]
  omega

theorem testBit_iff (b i : Nat) : ((b >>> i) &&& 1 ≠ 0) ↔ b.testBit i = true := by
  rw [and_one_ne_iff, Nat.testBit_to_div_mod, Nat.shiftRight_eq_div_pow,
    decide_eq_true_eq]

theorem xor_left_comm (a b c : Nat) : a ^^^ (b ^^^ c) = b ^^^ (a ^^^ c) := by
  rw [← Nat.xor_assoc, Nat.xor_comm a b, Nat.xor_assoc]

theorem xor_shiftLeft (a b n : Nat) : (a ^^^ b) <<< n = (a <<< n) ^^^ (b <<< n) := by
  apply Nat.eq_of_testBit_eq
  intro i
  simp only [Nat.testBit_shiftLeft, Nat.testBit_xor]
  cases hd : decide (i ≥ n) <;> simp

theorem xor_shiftRight (a b n : Nat) : (a ^^^ b) >>> n = (a >>> n) ^^^ (b >>> n) := by
  apply Nat.eq_of_testBit_eq
  intro i
  simp only [Nat.testBit_shiftRight, Nat.testBit_xor]

/-- One polymod iteration, rewritten as its shift-xor core followed by the
xor of the selected generators. -/
theorem polymodStep_eq (chk v : Nat) :
    polymodStep chk v = (((chk &&& 0x1ffffff) <<< 5) ^^^ v) ^^^ gensMask (chk >>> 25) := by
  simp only [polymodStep, gensMask, testBit_iff]
  cases hb0 : (chk >>> 25).testBit 0 <;> cases hb1 : (chk >>> 25).testBit 1 <;>
    cases hb2 : (chk >>> 25).testBit 2 <;> cases hb3 : (chk >>> 25).testBit 3 <;>
    cases hb4 : (chk >>> 25).testBit 4 <;>
    simp [hb0, hb1, hb2, hb3, hb4, Nat.xor_assoc]

theorem gensMask_xor (a b : Nat) : gensMask (a ^^^ b) = gensMask a ^^^ gensMask b := by
  have hterm : ∀ (x y : Bool) (g : Nat),
      (if (x ^^ y) = true then g else 0) =
        (if x = true then g else 0) ^^^ (if y = true then g else 0) := by
    intro x y g
    cases x <;> cases y <;> simp [Nat.xor_self]
  unfold gensMask
  simp only [Nat.testBit_xor, hterm]
  simp only [Nat.xor_assoc, Nat.xor_comm, xor_left_comm]

theorem polymodStep_xor (chk d v : Nat) :
    polymodStep (chk ^^^ d) v = polymodStep chk v ^^^ polyL d := by
  rw [polymodStep_eq, polymodStep_eq, polyL, Nat.and_xor_distrib_right,
    xor_shiftLeft, xor_shiftRight, gensMask_xor]
  simp only [Nat.xor_assoc, Nat.xor_comm, xor_left_comm]

theorem polymodStep_v_xor (chk v e : Nat) :
    polymodStep chk (v ^^^ e) = polymodStep chk v ^^^ e := by
  rw [polymodStep_eq, polymodStep_eq]
  simp only [Nat.xor_assoc, Nat.xor_comm, xor_left_comm]

theorem foldl_polymodStep_xor :
    ∀ (vs : List Nat) (chk d : Nat),
      List.foldl polymodStep (chk ^^^ d) vs =
        List.foldl polymodStep chk vs ^^^ polyL^[vs.length] d := by
  intro vs
  induction vs with
  | nil => intro chk d; simp
  | cons v rest ih =>
    intro chk d
    simp only [List.foldl_cons, List.length_cons]
    rw [polymodStep_xor, ih, Function.iterate_succ_apply]

theorem polymod_flip (P suf : List Nat) (v e : Nat) :
    List.foldl polymodStep 1 (P ++ (v ^^^ e) :: suf) =
      List.foldl polymodStep 1 (P ++ v :: suf) ^^^ polyL^[suf.length] e := by
  rw [List.foldl_append, List.foldl_append]
  simp only [List.foldl_cons]
  rw [polymodStep_v_xor]
  exact foldl_polymodStep_xor suf _ _

theorem gensMask_lt (b : Nat) : gensMask b < 2 ^ 30 := by
  unfold gensMask
  apply Nat.xor_lt_two_pow
  apply Nat.xor_lt_two_pow
  apply Nat.xor_lt_two_pow
  apply Nat.xor_lt_two_pow
  all_goals split_ifs <;> norm_num

theorem polymodStep_lt (chk v : Nat) (hv : v < 2 ^ 30) : polymodStep chk v < 2 ^ 30 := by
  rw [polymodStep_eq]
  apply Nat.xor_lt_two_pow
  · apply Nat.xor_lt_two_pow
    · have h1 : chk &&& 0x1ffffff < 2 ^ 25 :=
        lt_of_le_of_lt Nat.and_le_right (by norm_num)
      rw [Nat.shiftLeft_eq]
      calc (chk &&& 0x1ffffff) * 2 ^ 5 < 2 ^ 25 * 2 ^ 5 :=
            Nat.mul_lt_mul_of_lt_of_le h1 (le_refl _) (by norm_num)
        _ = 2 ^ 30 := by norm_num
    · exact hv
  · exact gensMask_lt _

theorem foldl_polymodStep_lt :
    ∀ (vs : List Nat) (chk : Nat), chk < 2 ^ 30 → (∀ v ∈ vs, v < 2 ^ 30) →
      List.foldl polymodStep chk vs < 2 ^ 30 := by
  intro vs
  induction vs with
  | nil => intro chk h _; simpa using h
  | cons v rest ih =>
    intro chk h hvs
    simp only [List.foldl_cons]
    exact ih _ (polymodStep_lt chk v (hvs v (by simp))) (fun x hx => hvs x (by simp [hx]))

theorem checksumRecompose_syms (m : Nat) (hm : m < 2 ^ 30) :
    checksumRecompose ((List.range 6).map (fun p => (m >>> (5 * (5 - p))) &&& 31)) = m := by
  have e31 : ∀ x : Nat, x &&& 31 = x % 32 := by
    intro x
    have h := Nat.and_pow_two_sub_one_eq_mod x 5
    norm_num at h
    exact h
  have hr : List.range 6 = [0, 1, 2, 3, 4, 5] := by decide
  rw [hr]
  simp only [List.map_cons, List.map_nil, checksumRecompose, List.foldl_cons, List.foldl_nil,
    e31, Nat.shiftRight_eq_div_pow]
  norm_num
  omega

theorem checksum_syms_inj (m₁ m₂ : Nat) (h₁ : m₁ < 2 ^ 30) (h₂ : m₂ < 2 ^ 30)
    (h : (List.range 6).map (fun p => (m₁ >>> (5 * (5 - p))) &&& 31) =
      (List.range 6).map (fun p => (m₂ >>> (5 * (5 - p))) &&& 31)) : m₁ = m₂ := by
  have := congrArg checksumRecompose h
  rwa [checksumRecompose_syms m₁ h₁, checksumRecompose_syms m₂ h₂] at this

theorem polyL_iter_check :
    ((List.range 52).all fun k =>
      (List.range 5).all fun j => polyL^[k + 6] (1 <<< j) != 0) = true := by
  decide

theorem polyL_iter_ne_zero (s j : Nat) (hs : s ≤ 51) (hj : j < 5) :
    polyL^[s + 6] (1 <<< j) ≠ 0 := by
  have hc := polyL_iter_check
  rw [List.all_eq_true] at hc
  have h1 := hc s (List.mem_range.mpr (by omega))
  rw [List.all_eq_true] at h1
  have h2 := h1 j (List.mem_range.mpr hj)
  simpa using h2

theorem xor_ne_self (a x : Nat) (hx : x ≠ 0) : a ^^^ x ≠ a := by
  intro h
  apply hx
  have h2 := congrArg (fun y => a ^^^ y) h
  simpa [Nat.xor_cancel_left, Nat.xor_self] using h2

/-- C8: for 52-symbol checksum data (the regrouped form of every 32-byte
payload), flipping any single bit of any data symbol changes the six-symbol
checksum: the two checksums produced by `bech32CreateChecksum` differ
whenever the data inputs differ in exactly one bit position.  The encoding
is therefore not constant or trivially collidable. -/
theorem spec_c8_checksum_sensitivity :
    ∀ (pre suf : List Nat) (v j : Nat), j < 5 → v < 32 →
      (∀ x ∈ pre, x < 32) → (∀ x ∈ suf, x < 32) →
      pre.length + suf.length = 51 →
      bech32CreateChecksum "erd" (pre ++ (v ^^^ (1 <<< j)) :: suf) ≠
        bech32CreateChecksum "erd" (pre ++ v :: suf) := by
  intro pre suf v j hj hv hpre hsuf hlen hEq
  have he32 : (1 <<< j) < 32 := by
    rw [Nat.one_shiftLeft]
    calc (2 : Nat) ^ j ≤ 2 ^ 4 := Nat.pow_le_pow_right (by norm_num) (by omega)
      _ < 32 := by norm_num
  have hv' : v ^^^ (1 <<< j) < 32 := by
    have h32 : (32 : Nat) = 2 ^ 5 := by norm_num
    rw [h32] at hv he32 ⊢
    exact Nat.xor_lt_two_pow hv he32
  -- bounds: every polymod input value is below 2^30
  have hhrp : ∀ x ∈ bech32HrpExpand "erd", x < 2 ^ 30 := by decide
  have hbound : ∀ (w : Nat), w < 32 →
      ∀ x ∈ bech32HrpExpand "erd" ++ (pre ++ w :: suf) ++ [0, 0, 0, 0, 0, 0],
        x < 2 ^ 30 := by
    intro w hw x hx
    rcases List.mem_append.mp hx with hx | hx
    · rcases List.mem_append.mp hx with hx | hx
      · exact hhrp x hx
      · rcases List.mem_append.mp hx with hx | hx
        · calc x < 32 := hpre x hx
            _ < 2 ^ 30 := by norm_num
        · rcases List.mem_cons.mp hx with rfl | hx
          · calc x < 32 := hw
              _ < 2 ^ 30 := by norm_num
          · calc x < 32 := hsuf x hx
              _ < 2 ^ 30 := by norm_num
    · simp only [List.mem_cons, List.not_mem_nil, or_false] at hx
      rcases hx with rfl | rfl | rfl | rfl | rfl | rfl <;> norm_num
  have hm₂ : bech32Polymod (bech32HrpExpand "erd" ++ (pre ++ (v ^^^ (1 <<< j)) :: suf) ++
      [0, 0, 0, 0, 0, 0]) < 2 ^ 30 :=
    foldl_polymodStep_lt _ 1 (by norm_num) (hbound _ hv')
  have hm₁ : bech32Polymod (bech32HrpExpand "erd" ++ (pre ++ v :: suf) ++
      [0, 0, 0, 0, 0, 0]) < 2 ^ 30 :=
    foldl_polymodStep_lt _ 1 (by norm_num) (hbound _ hv)
  -- equal checksum symbol lists force equal 30-bit checksums
  unfold bech32CreateChecksum at hEq
  have hmods := checksum_syms_inj _ _
    (Nat.xor_lt_two_pow hm₂ (by norm_num)) (Nat.xor_lt_two_pow hm₁ (by norm_num)) hEq
  have hpoly : bech32Polymod (bech32HrpExpand "erd" ++ (pre ++ (v ^^^ (1 <<< j)) :: suf) ++
      [0, 0, 0, 0, 0, 0]) =
      bech32Polymod (bech32HrpExpand "erd" ++ (pre ++ v :: suf) ++ [0, 0, 0, 0, 0, 0]) := by
    have h2 := congrArg (fun y => y ^^^ 1) hmods
    simpa [Nat.xor_assoc] using h2
  -- the single-bit difference propagates linearly through the fold
  have hre : ∀ w : Nat, bech32HrpExpand "erd" ++ (pre ++ w :: suf) ++ [0, 0, 0, 0, 0, 0] =
      (bech32HrpExpand "erd" ++ pre) ++ w :: (suf ++ [0, 0, 0, 0, 0, 0]) := by
    intro w
    simp [List.append_assoc]
  rw [hre, hre] at hpoly
  unfold bech32Polymod at hpoly
  rw [polymod_flip] at hpoly
  have hnz : polyL^[(suf ++ [0, 0, 0, 0, 0, 0]).length] (1 <<< j) ≠ 0 := by
    have hslen : (suf ++ [0, 0, 0, 0, 0, 0]).length = suf.length + 6 := by simp
    rw [hslen]
    exact polyL_iter_ne_zero suf.length j (by omega) hj
  exact (xor_ne_self _ _ hnz) hpoly

/-- C8 (witness): flipping the lowest bit of the first of 52 zero symbols
changes the checksum. -/
theorem spec_c8_witness :
    bech32CreateChecksum "erd" ([] ++ (0 ^^^ (1 <<< 0)) :: List.replicate 51 0) ≠
      bech32CreateChecksum "erd" ([] ++ 0 :: List.replicate 51 0) :=
  spec_c8_checksum_sensitivity [] (List.replicate 51 0) 0 0 (by norm_num) (by norm_num)
    (by simp) (by intro x hx; rw [List.eq_of_mem_replicate hx]; norm_num) (by simp)

/-! ## Map and `Per5` lemmas for the aggregation engine -/

theorem jsGet_cons {κ α : Type} [BEq κ] (a : κ) (b : α) (t : List (κ × α)) (x : κ) :
    jsGet ((a, b) :: t) x = if (a == x) = true then some b else jsGet t x := by
  simp only [jsGet, List.find?]
  cases h : a == x <;> simp [h]

theorem jsGet_jsSet {κ α : Type} [BEq κ] [LawfulBEq κ] [DecidableEq κ] (k : κ) (v : α) :
    ∀ (m : List (κ × α)) (x : κ),
      jsGet (jsSet m k v) x = if x = k then some v else jsGet m x := by
  intro m
  induction m with
  | nil =>
    intro x
    by_cases hx : x = k
    · subst hx
      simp [jsGet, jsSet, List.find?]
    · have hb : (k == x) = false := by
        rw [beq_eq_false_iff_ne]
        exact fun h => hx h.symm
      simp [jsGet, jsSet, List.find?, hb, hx]
  | cons hd rest ih =>
    intro x
    obtain ⟨k₀, v₀⟩ := hd
    cases hb : k₀ == k with
    | true =>
      have hk : k₀ = k := eq_of_beq hb
      subst hk
      simp only [jsSet, hb, if_true]
      by_cases hx : x = k₀
      · subst hx
        simp [jsGet_cons]
      · have hbx : (k₀ == x) = false := by
          rw [beq_eq_false_iff_ne]
          exact fun h => hx h.symm
        simp [jsGet_cons, hbx, hx]
    | false =>
      have hk : k₀ ≠ k := by
        intro h
        rw [h] at hb
        simp at hb
      simp only [jsSet, hb, Bool.false_eq_true, if_false]
      by_cases hx : x = k₀
      · subst hx
        have hxk : ¬x = k := hk
        simp [jsGet_cons, hxk]
      · have hbx : (k₀ == x) = false := by
          rw [beq_eq_false_iff_ne]
          exact fun h => hx h.symm
        simp [jsGet_cons, hbx]
        exact ih x

theorem mapPowerSum_cons (a : Option String × Acc) (t : List (Option String × Acc)) :
    mapPowerSum (a :: t) = a.2.power + mapPowerSum t := by
  simp [mapPowerSum]

theorem mapPowerSum_jsSetAddAcc (k : Option String) (st p : Nat) :
    ∀ m : List (Option String × Acc),
      mapPowerSum (jsSetAddAcc m k st p) = mapPowerSum m + p := by
  intro m
  induction m with
  | nil => simp [jsSetAddAcc, jsSet, jsGet, mapPowerSum, accAdd, zeroAcc]
  | cons hd rest ih =>
    obtain ⟨k₀, a₀⟩ := hd
    cases hb : k₀ == k with
    | true =>
      simp only [jsSetAddAcc, jsSet, hb, if_true, jsGet_cons, Option.getD_some,
        mapPowerSum_cons, accAdd]
      omega
    | false =>
      have ih' := ih
      simp only [jsSetAddAcc, jsGet_cons, hb, Bool.false_eq_true, if_false,
        jsSet, mapPowerSum_cons] at ih' ⊢
      rw [ih']
      omega

theorem Per5.get_set {α : Type} (x : Per5 α) (o o' : VoteOption) (v : α) :
    (x.set o v).get o' = if o' = o then v else x.get o' := by
  cases o <;> cases o' <;> simp [Per5.get, Per5.set]

theorem Per5.get_modify {α : Type} (x : Per5 α) (o o' : VoteOption) (f : α → α) :
    (x.modify o f).get o' = if o' = o then f (x.get o') else x.get o' := by
  rw [Per5.modify, Per5.get_set]
  by_cases h : o' = o
  · subst h
    simp
  · simp [h]

theorem sumPowers_modify_aggAdd (x : Per5 OptionAgg) (o : VoteOption) (p : Nat) :
    sumPowers (x.modify o (fun a => aggAdd a p)) = sumPowers x + p := by
  cases o <;> simp [Per5.modify, Per5.get, Per5.set, sumPowers, aggAdd] <;> omega

/-- Fold invariance: a predicate preserved by every step holds after the
fold. -/
theorem foldl_pres {σ α : Type} (P : σ → Prop) (f : σ → α → σ)
    (hstep : ∀ s e, P s → P (f s e)) :
    ∀ (l : List α) (s : σ), P s → P (l.foldl f s) := by
  intro l
  induction l with
  | nil => intro s h; exact h
  | cons e rest ih =>
    intro s h
    exact ih _ (hstep s e h)

/-- Fold invariance under an element-wise condition. -/
theorem foldl_pres_mem {σ α : Type} (P : σ → Prop) (f : σ → α → σ) (Q : α → Prop)
    (hstep : ∀ s e, Q e → P s → P (f s e)) :
    ∀ (l : List α) (s : σ), (∀ e ∈ l, Q e) → P s → P (l.foldl f s) := by
  intro l
  induction l with
  | nil => intro s _ h; exact h
  | cons e rest ih =>
    intro s hq h
    exact ih _ (fun x hx => hq x (by simp [hx])) (hstep s e (hq e (by simp)) h)

/-- C1: in both variants, after the aggregation fold the total power equals
the sum of the five category powers — each event adds its vote power to
exactly one category and to the total. -/
theorem spec_c1_total_power :
    ∀ events : List RawEvent,
      (statsV1 events).totalPower = sumPowers (statsV1 events).byOption ∧
      (statsV2 events).totalPower = sumPowers (statsV2 events).byOption := by
  intro events
  constructor
  · refine foldl_pres (fun s => s.totalPower = sumPowers s.byOption) stepV1 ?_ events initV1
      (by simp [initV1, sumPowers, Per5.const])
    intro s e h
    simp only [stepV1]
    split_ifs with h1 h2 h3
    · exact h
    · simp only [sumPowers_modify_aggAdd, h]
    · simp only [sumPowers_modify_aggAdd, h]
    · exact h
  · refine foldl_pres (fun s => s.totalPower = sumPowers s.byOption) stepV2 ?_ events initV2
      (by simp [initV2, sumPowers, Per5.const])
    intro s e h
    simp only [stepV2]
    split_ifs with h1 h2 h3
    · exact h
    · simp only [sumPowers_modify_aggAdd, h]
    · simp only [sumPowers_modify_aggAdd, h]
    · exact h

/-- C2: per-voter closure.  In V1 (per-voter tracking enabled for both event
kinds) the sum of the per-voter accumulator powers of every category equals
that category's total power, unconditionally.  In V2 per-voter tracking is
enabled only for `delegateVote` events, and the same closure holds for every
batch consisting of such events. -/
theorem spec_c2_per_voter_closure :
    (∀ (events : List RawEvent) (o : VoteOption),
      mapPowerSum ((statsV1 events).perCat.get o) = ((statsV1 events).byOption.get o).power) ∧
    (∀ events : List RawEvent, (∀ e ∈ events, e.identifier = "delegateVote") →
      ∀ o : VoteOption,
        mapPowerSum ((statsV2 events).perCat.get o) =
          ((statsV2 events).byOption.get o).power) := by
  constructor
  · intro events
    refine foldl_pres
      (fun s => ∀ o, mapPowerSum (s.perCat.get o) = (s.byOption.get o).power)
      stepV1 ?_ events initV1 (by intro o; cases o <;> simp [initV1, Per5.const, Per5.get, mapPowerSum])
    intro s e h o
    simp only [stepV1]
    split_ifs with h1 h2 h3
    · exact h o
    · rw [Per5.get_modify, Per5.get_modify]
      by_cases ho : o = decodeOption (topic e.topics 1)
      · simp only [ho, eq_self_iff_true, if_true, mapPowerSum_jsSetAddAcc, aggAdd, h]
      · simp only [if_neg ho, h]
    · rw [Per5.get_modify, Per5.get_modify]
      by_cases ho : o = decodeOption (topic e.topics 1)
      · simp only [ho, eq_self_iff_true, if_true, mapPowerSum_jsSetAddAcc, aggAdd, h]
      · simp only [if_neg ho, h]
    · exact h o
  · intro events hdel
    refine foldl_pres_mem
      (fun s => ∀ o, mapPowerSum (s.perCat.get o) = (s.byOption.get o).power)
      stepV2 (fun e => e.identifier = "delegateVote") ?_ events initV2 hdel
      (by intro o; cases o <;> simp [initV2, Per5.const, Per5.get, mapPowerSum])
    intro s e hq h o
    have hnv : ¬e.identifier = "vote" := by
      rw [hq]
      decide
    simp only [stepV2, hnv, if_false]
    split_ifs with h1 h3
    · exact h o
    · rw [Per5.get_modify, Per5.get_modify]
      by_cases ho : o = decodeOption (topic e.topics 1)
      · simp only [ho, eq_self_iff_true, if_true, mapPowerSum_jsSetAddAcc, aggAdd, h]
      · simp only [if_neg ho, h]

/-- C2 (witness): closure at one concrete `delegateVote`-only batch, in both
variants. -/
theorem spec_c2_witness :
    mapPowerSum ((statsV1 [⟨some "src", "delegateVote", ["aa", "6e6f", "cc", "0a", "14"]⟩]).perCat.get .no) =
      ((statsV1 [⟨some "src", "delegateVote", ["aa", "6e6f", "cc", "0a", "14"]⟩]).byOption.get .no).power ∧
    mapPowerSum ((statsV2 [⟨some "src", "delegateVote", ["aa", "6e6f", "cc", "0a", "14"]⟩]).perCat.get .no) =
      ((statsV2 [⟨some "src", "delegateVote", ["aa", "6e6f", "cc", "0a", "14"]⟩]).byOption.get .no).power :=
  ⟨spec_c2_per_voter_closure.1 _ .no,
   spec_c2_per_voter_closure.2 _ (by simp) .no⟩

/-! ## Leaderboards (C9) -/

theorem leByPower_trans (a b c : VoterRow) (hab : leByPower a b = true)
    (hbc : leByPower b c = true) : leByPower a c = true := by
  simp only [leByPower, decide_eq_true_eq] at *
  omega

theorem leByPower_total (a b : VoterRow) : (leByPower a b || leByPower b a) = true := by
  simp only [leByPower, Bool.or_eq_true, decide_eq_true_eq]
  omega

theorem leByStakePower_trans (a b c : VoterRow) (hab : leByStakePower a b = true)
    (hbc : leByStakePower b c = true) : leByStakePower a c = true := by
  simp only [leByStakePower] at *
  split_ifs at * <;> simp only [decide_eq_true_eq] at * <;> omega

theorem leByStakePower_total (a b : VoterRow) :
    (leByStakePower a b || leByStakePower b a) = true := by
  simp only [leByStakePower]
  split_ifs with h1 h2 <;> simp only [Bool.or_eq_true, decide_eq_true_eq] <;> omega

/-- C9: in both variants, `topPerCategory` returns at most 50 rows, sorted
non-increasing by the configured ranking key (power in V1, stake with power
as tie break in V2); when the map holds fewer than 50 voters every voter is
returned. -/
theorem spec_c9_top_per_category :
    ∀ m : List (Option String × Acc),
      (topPerCategoryV1 m).length ≤ 50 ∧
      (topPerCategoryV1 m).Pairwise (fun a b => b.power ≤ a.power) ∧
      ((rowsOf m).length < 50 → (topPerCategoryV1 m).Perm (rowsOf m)) ∧
      (topPerCategoryV2 m).length ≤ 50 ∧
      (topPerCategoryV2 m).Pairwise (fun a b =>
        b.stake < a.stake ∨ (a.stake = b.stake ∧ b.power ≤ a.power)) ∧
      ((rowsOf m).length < 50 → (topPerCategoryV2 m).Perm (rowsOf m)) := by
  intro m
  refine ⟨?_, ?_, ?_, ?_, ?_, ?_⟩
  · rw [topPerCategoryV1, List.length_take]
    exact inf_le_left
  · have hs := List.sorted_mergeSort leByPower_trans leByPower_total (rowsOf m)
    have ht := hs.sublist (List.take_sublist 50 _)
    exact ht.imp (fun h => by simpa [leByPower] using h)
  · intro hlt
    have hperm := List.mergeSort_perm (rowsOf m) leByPower
    have hlen : ((rowsOf m).mergeSort leByPower).length ≤ 50 := by
      rw [hperm.length_eq]
      omega
    rw [topPerCategoryV1, List.take_of_length_le hlen]
    exact hperm
  · rw [topPerCategoryV2, List.length_take]
    exact inf_le_left
  · have hs := List.sorted_mergeSort leByStakePower_trans leByStakePower_total (rowsOf m)
    have ht := hs.sublist (List.take_sublist 50 _)
    refine ht.imp (fun h => ?_)
    simp only [leByStakePower] at h
    split_ifs at h with h1 <;> simp only [decide_eq_true_eq] at h
    · exact Or.inr ⟨h1, h⟩
    · exact Or.inl (by omega)
  · intro hlt
    have hperm := List.mergeSort_perm (rowsOf m) leByStakePower
    have hlen : ((rowsOf m).mergeSort leByStakePower).length ≤ 50 := by
      rw [hperm.length_eq]
      omega
    rw [topPerCategoryV2, List.take_of_length_le hlen]
    exact hperm

/-- C9 (witness): on a one-entry map both variants return exactly that
voter. -/
theorem spec_c9_witness :
    (topPerCategoryV1 [(some "a", ⟨1, 2, 3⟩)]).Perm (rowsOf [(some "a", ⟨1, 2, 3⟩)]) ∧
    (topPerCategoryV2 [(some "a", ⟨1, 2, 3⟩)]).Perm (rowsOf [(some "a", ⟨1, 2, 3⟩)]) :=
  ⟨(spec_c9_top_per_category [(some "a", ⟨1, 2, 3⟩)]).2.2.1 (by simp [rowsOf]),
   (spec_c9_top_per_category [(some "a", ⟨1, 2, 3⟩)]).2.2.2.2.2 (by simp [rowsOf])⟩

/-! ## Order independence of the fold (C3) -/

theorem jsGetF_jsSetAddAcc (m : List (Option String × Acc)) (k : Option String) (st p : Nat) :
    (fun x => jsGet (jsSetAddAcc m k st p) x) = updVoterF (fun x => jsGet m x) k st p := by
  funext x
  simp only [updVoterF, Function.update_apply, jsSetAddAcc, jsGet_jsSet]

theorem jsGetF_bumpDeleg (m : List (String × Nat)) (lbl : String) (inc : Nat) :
    (fun x => jsGet (bumpDeleg m lbl inc) x) = updDelegF (fun x => jsGet m x) lbl inc := by
  funext x
  simp only [updDelegF, Function.update_apply, bumpDeleg, jsGet_jsSet]

theorem Per5.mapAll_modify {α β : Type} (F : α → β) (x : Per5 α) (o : VoteOption)
    (f : α → α) (g : β → β) (h : F (f (x.get o)) = g (F (x.get o))) :
    Per5.mapAll F (x.modify o f) = (Per5.mapAll F x).modify o g := by
  cases o <;> simp_all [Per5.mapAll, Per5.modify, Per5.get, Per5.set]

theorem accAdd_comm (a : Acc) (s₁ p₁ s₂ p₂ : Nat) :
    accAdd (accAdd a s₁ p₁) s₂ p₂ = accAdd (accAdd a s₂ p₂) s₁ p₁ := by
  simp [accAdd, Nat.add_right_comm]

theorem aggAdd_comm (a : OptionAgg) (p₁ p₂ : Nat) :
    aggAdd (aggAdd a p₁) p₂ = aggAdd (aggAdd a p₂) p₁ := by
  simp [aggAdd, Nat.add_right_comm]

theorem updVoterF_comm (g : Option String → Option Acc) (k₁ k₂ : Option String)
    (s₁ p₁ s₂ p₂ : Nat) :
    updVoterF (updVoterF g k₁ s₁ p₁) k₂ s₂ p₂ = updVoterF (updVoterF g k₂ s₂ p₂) k₁ s₁ p₁ := by
  funext x
  by_cases h12 : k₂ = k₁
  · subst h12
    simp only [updVoterF, Function.update_apply, eq_self_iff_true, if_true, Option.getD_some]
    by_cases hx : x = k₂
    · simp [hx, accAdd_comm]
    · simp [hx]
  · have h21 : ¬k₁ = k₂ := fun h => h12 h.symm
    simp only [updVoterF, Function.update_apply, if_neg h12, if_neg h21]
    by_cases hx1 : x = k₁ <;> by_cases hx2 : x = k₂
    · subst hx1
      exact absurd hx2 h21
    · subst hx1
      simp [h21]
    · subst hx2
      simp [h12]
    · simp [hx1, hx2]

theorem updDelegF_comm (d : String → Option Nat) (l₁ l₂ : String) (i₁ i₂ : Nat) :
    updDelegF (updDelegF d l₁ i₁) l₂ i₂ = updDelegF (updDelegF d l₂ i₂) l₁ i₁ := by
  funext x
  by_cases h12 : l₂ = l₁
  · subst h12
    simp only [updDelegF, Function.update_apply, eq_self_iff_true, if_true, Option.getD_some]
    by_cases hx : x = l₂
    · simp [hx]
      omega
    · simp [hx]
  · have h21 : ¬l₁ = l₂ := fun h => h12 h.symm
    simp only [updDelegF, Function.update_apply, if_neg h12, if_neg h21]
    by_cases hx1 : x = l₁ <;> by_cases hx2 : x = l₂
    · subst hx1
      exact absurd hx2 h21
    · subst hx1
      simp [h21]
    · subst hx2
      simp [h12]
    · simp [hx1, hx2]

theorem Per5.modify_comm {α : Type} (x : Per5 α) (o₁ o₂ : VoteOption) (f g : α → α)
    (hfg : ∀ a, g (f a) = f (g a)) :
    (x.modify o₁ f).modify o₂ g = (x.modify o₂ g).modify o₁ f := by
  cases o₁ <;> cases o₂ <;> simp [Per5.modify, Per5.get, Per5.set, hfg]

theorem obs_stepV1 (s : StateV1) (e : RawEvent) :
    obsV1 (stepV1 s e) = absStepV1 (obsV1 s) e := by
  obtain ⟨bo, pc, tp, dp, dc⟩ := s
  simp only [stepV1, absStepV1, classify]
  split_ifs with h1 h2 h3
  · rfl
  · simp only [obsV1, absActV1]
    rw [Per5.mapAll_modify _ _ _ _
      (fun gg => updVoterF gg e.address (hexToBigInt (topic e.topics 2))
        (hexToBigInt (topic e.topics 3)))
      (jsGetF_jsSetAddAcc _ _ _ _)]
  · simp only [obsV1, absActV1]
    rw [Per5.mapAll_modify _ _ _ _
      (fun gg => updVoterF gg ((e.topics.get? 2).map (fun h => (hexToBech32Erd h).getD h))
        (hexToBigInt (topic e.topics 3)) (hexToBigInt (topic e.topics 4)))
      (jsGetF_jsSetAddAcc _ _ _ _),
      jsGetF_bumpDeleg, jsGetF_bumpDeleg]
  · rfl

theorem obs_stepV2 (s : StateV2) (e : RawEvent) :
    obsV2 (stepV2 s e) = absStepV2 (obsV2 s) e := by
  obtain ⟨bo, pc, tp, dp⟩ := s
  simp only [stepV2, absStepV2, classify]
  split_ifs with h1 h2 h3
  · rfl
  · simp only [obsV2, absActV2]
  · simp only [obsV2, absActV2]
    rw [Per5.mapAll_modify _ _ _ _
      (fun gg => updVoterF gg ((e.topics.get? 2).map (fun h => (hexToBech32Erd h).getD h))
        (hexToBigInt (topic e.topics 3)) (hexToBigInt (topic e.topics 4)))
      (jsGetF_jsSetAddAcc _ _ _ _), jsGetF_bumpDeleg]
  · rfl

theorem absActV1_comm (a : ObsV1) : ∀ e₁ e₂ : EvAction,
    absActV1 (absActV1 a e₁) e₂ = absActV1 (absActV1 a e₂) e₁ := by
  intro e₁ e₂
  obtain ⟨bo, tp, pc, dp, dc⟩ := a
  cases e₁ with
  | skip => simp [absActV1]
  | voteAct o₁ k₁ s₁ p₁ =>
    cases e₂ with
    | skip => simp [absActV1]
    | voteAct o₂ k₂ s₂ p₂ =>
      simp only [absActV1, ObsV1.mk.injEq]
      exact ⟨Per5.modify_comm _ _ _ _ _ (fun x => aggAdd_comm x p₁ p₂), by omega,
        Per5.modify_comm _ _ _ _ _ (fun x => updVoterF_comm x k₁ k₂ s₁ p₁ s₂ p₂), trivial, trivial⟩
    | delegAct o₂ k₂ s₂ p₂ lbl₂ =>
      simp only [absActV1, ObsV1.mk.injEq]
      exact ⟨Per5.modify_comm _ _ _ _ _ (fun x => aggAdd_comm x p₁ p₂), by omega,
        Per5.modify_comm _ _ _ _ _ (fun x => updVoterF_comm x k₁ k₂ s₁ p₁ s₂ p₂), trivial, trivial⟩
  | delegAct o₁ k₁ s₁ p₁ lbl₁ =>
    cases e₂ with
    | skip => simp [absActV1]
    | voteAct o₂ k₂ s₂ p₂ =>
      simp only [absActV1, ObsV1.mk.injEq]
      exact ⟨Per5.modify_comm _ _ _ _ _ (fun x => aggAdd_comm x p₁ p₂), by omega,
        Per5.modify_comm _ _ _ _ _ (fun x => updVoterF_comm x k₁ k₂ s₁ p₁ s₂ p₂), trivial, trivial⟩
    | delegAct o₂ k₂ s₂ p₂ lbl₂ =>
      simp only [absActV1, ObsV1.mk.injEq]
      exact ⟨Per5.modify_comm _ _ _ _ _ (fun x => aggAdd_comm x p₁ p₂), by omega,
        Per5.modify_comm _ _ _ _ _ (fun x => updVoterF_comm x k₁ k₂ s₁ p₁ s₂ p₂),
        updDelegF_comm _ _ _ _ _, updDelegF_comm _ _ _ _ _⟩

theorem absActV2_comm (a : ObsV2) : ∀ e₁ e₂ : EvAction,
    absActV2 (absActV2 a e₁) e₂ = absActV2 (absActV2 a e₂) e₁ := by
  intro e₁ e₂
  obtain ⟨bo, tp, pc, dp⟩ := a
  cases e₁ with
  | skip => simp [absActV2]
  | voteAct o₁ k₁ s₁ p₁ =>
    cases e₂ with
    | skip => simp [absActV2]
    | voteAct o₂ k₂ s₂ p₂ =>
      simp only [absActV2, ObsV2.mk.injEq]
      exact ⟨Per5.modify_comm _ _ _ _ _ (fun x => aggAdd_comm x p₁ p₂), by omega, trivial, trivial⟩
    | delegAct o₂ k₂ s₂ p₂ lbl₂ =>
      simp only [absActV2, ObsV2.mk.injEq]
      exact ⟨Per5.modify_comm _ _ _ _ _ (fun x => aggAdd_comm x p₁ p₂), by omega, trivial, trivial⟩
  | delegAct o₁ k₁ s₁ p₁ lbl₁ =>
    cases e₂ with
    | skip => simp [absActV2]
    | voteAct o₂ k₂ s₂ p₂ =>
      simp only [absActV2, ObsV2.mk.injEq]
      exact ⟨Per5.modify_comm _ _ _ _ _ (fun x => aggAdd_comm x p₁ p₂), by omega, trivial, trivial⟩
    | delegAct o₂ k₂ s₂ p₂ lbl₂ =>
      simp only [absActV2, ObsV2.mk.injEq]
      exact ⟨Per5.modify_comm _ _ _ _ _ (fun x => aggAdd_comm x p₁ p₂), by omega,
        Per5.modify_comm _ _ _ _ _ (fun x => updVoterF_comm x k₁ k₂ s₁ p₁ s₂ p₂),
        updDelegF_comm _ _ _ _ _⟩

theorem foldl_comm_perm {σ α : Type} (f : σ → α → σ)
    (hcomm : ∀ s e₁ e₂, f (f s e₁) e₂ = f (f s e₂) e₁) :
    ∀ {l₁ l₂ : List α}, l₁.Perm l₂ → ∀ s, l₁.foldl f s = l₂.foldl f s := by
  intro l₁ l₂ hp
  induction hp with
  | nil => intro s; rfl
  | cons x hp ih =>
    intro s
    simp only [List.foldl_cons]
    exact ih _
  | swap x y l =>
    intro s
    simp only [List.foldl_cons]
    rw [hcomm]
  | trans hp₁ hp₂ ih₁ ih₂ =>
    intro s
    rw [ih₁ s, ih₂ s]

theorem obsV1_foldl : ∀ (l : List RawEvent) (s : StateV1),
    obsV1 (l.foldl stepV1 s) = l.foldl absStepV1 (obsV1 s) := by
  intro l
  induction l with
  | nil => intro s; rfl
  | cons e rest ih =>
    intro s
    simp only [List.foldl_cons]
    rw [ih, obs_stepV1]

theorem obsV2_foldl : ∀ (l : List RawEvent) (s : StateV2),
    obsV2 (l.foldl stepV2 s) = l.foldl absStepV2 (obsV2 s) := by
  intro l
  induction l with
  | nil => intro s; rfl
  | cons e rest ih =>
    intro s
    simp only [List.foldl_cons]
    rw [ih, obs_stepV2]

/-- C3: the aggregation fold is order independent.  For every permutation of
the batch, both variants produce the same observable contents: the same
category totals (count and power), the same total power, the same per-voter
accumulator contents per category, and the same delegation-source totals. -/
theorem spec_c3_order_independence :
    ∀ l₁ l₂ : List RawEvent, l₁.Perm l₂ →
      obsV1 (statsV1 l₁) = obsV1 (statsV1 l₂) ∧
      obsV2 (statsV2 l₁) = obsV2 (statsV2 l₂) := by
  intro l₁ l₂ hp
  constructor
  · show obsV1 (l₁.foldl stepV1 initV1) = obsV1 (l₂.foldl stepV1 initV1)
    rw [obsV1_foldl, obsV1_foldl]
    exact foldl_comm_perm absStepV1
      (fun a e₁ e₂ => absActV1_comm a (classify e₁) (classify e₂)) hp _
  · show obsV2 (l₁.foldl stepV2 initV2) = obsV2 (l₂.foldl stepV2 initV2)
    rw [obsV2_foldl, obsV2_foldl]
    exact foldl_comm_perm absStepV2
      (fun a e₁ e₂ => absActV2_comm a (classify e₁) (classify e₂)) hp _

/-- C3 (witness): swapping a direct vote and a delegated vote leaves all
observable contents unchanged, in both variants. -/
theorem spec_c3_witness :
    obsV1 (statsV1 [⟨some "alice", "vote", ["p0", "796573", "05", "07"]⟩,
        ⟨some "src", "delegateVote", ["p0", "6e6f", "cc", "0a", "14"]⟩]) =
      obsV1 (statsV1 [⟨some "src", "delegateVote", ["p0", "6e6f", "cc", "0a", "14"]⟩,
        ⟨some "alice", "vote", ["p0", "796573", "05", "07"]⟩]) ∧
    obsV2 (statsV2 [⟨some "alice", "vote", ["p0", "796573", "05", "07"]⟩,
        ⟨some "src", "delegateVote", ["p0", "6e6f", "cc", "0a", "14"]⟩]) =
      obsV2 (statsV2 [⟨some "src", "delegateVote", ["p0", "6e6f", "cc", "0a", "14"]⟩,
        ⟨some "alice", "vote", ["p0", "796573", "05", "07"]⟩]) :=
  ⟨(spec_c3_order_independence _ _ (List.Perm.swap _ _ _)).1,
   (spec_c3_order_independence _ _ (List.Perm.swap _ _ _)).2⟩

end GovStats
